import Mathlib

/-!
Verification of the core algorithms of a PLONK-style proof system
(width-4 arithmetization over a prime field, KZG commitments) against its
natural-language specification.

The development shallowly embeds the relevant source functions over an
abstract field `F`:

* the grand-product (permutation accumulator) computations
  `compute_permutation_poly`, `compute_fast_permutation_poly`,
  `compute_slow_permutation_poly` from `permutation/mod.rs`;
* the sigma-permutation construction `compute_sigma_permutations`;
* the verifier-side quotient evaluation `compute_quotient_evaluation`,
  `compute_first_lagrange_evaluation` and `compute_barycentric_eval`
  from `proof_system/proof.rs`;
* the composer padding and length check `pad`, `check_poly_same_len`,
  `preprocess_shared` from `proof_system/preprocess.rs`;
* the range gadget `range_gate` from `constraint_system/range.rs`;
* the Fiat-Shamir challenge derivation `challenge_scalar` from
  `transcript.rs`.

External collaborators (the FFT engine, the Merlin transcript primitive,
field serialization) are modelled by their interface semantics: `fft` is
evaluation at the domain points, the inverse FFT and byte-to-field
reduction are abstract function parameters, and the Merlin byte source is
an abstract stream.  Rust panics (asserts, out-of-bounds indexing,
`unwrap` on `None`) are modelled by `Option`: a function returns `none`
exactly on the inputs where the source panics.
-/

/-- A small concrete field used to instantiate the generic theorems on
concrete inputs.  The inverse is given by a lookup table so that every
field operation reduces by `decide`. -/
instance fieldFin5 : Field (Fin 5) :=
  { Fin.instCommRing 5 with
    inv := fun a => [0, 1, 3, 2, 4].getD a.val 0
    div := fun a b => a * ([0, 1, 3, 2, 4].getD b.val 0)
    div_eq_mul_inv := fun _ _ => rfl
    mul_inv_cancel := by decide
    inv_zero := by decide
    exists_pair_ne := ⟨0, 1, by decide⟩
    nnqsmul := _
    qsmul := _ }

namespace ArkPlonk

variable {F : Type} [Field F] [DecidableEq F]

/-! ### Evaluation domains and the external FFT interface -/

/-- An evaluation domain, as used through `ark_poly`'s
`GeneralEvaluationDomain`: a size `n` together with the generator `ω` of
the multiplicative subgroup of order `n`.  The algebraic property that
`gen` is a primitive `n`-th root of unity is never needed by the
computations modelled here. -/
structure Domain (F : Type) where
  size : Nat
  gen : F

/-- The list of domain elements `[ω^0, ω^1, …, ω^(n-1)]`
(`domain.elements()` in `ark_poly`). -/
def Domain.elements (d : Domain F) : List F :=
  (List.range d.size).map (fun j => d.gen ^ j)

/-- Horner evaluation of a coefficient list (low degree first), the
semantics of `DensePolynomial::evaluate`. -/
def evalPoly (p : List F) (x : F) : F :=
  p.foldr (fun c acc => c + x * acc) 0

/-- Modelled from the spec: the FFT engine is an out-of-scope external
collaborator.  `domain.fft(poly)` returns the evaluations of the
polynomial at the `n` domain points, which is what the computations here
rely on. -/
def fft (d : Domain F) (p : List F) : List F :=
  d.elements.map (evalPoly p)

/-- `domain.evaluate_vanishing_polynomial(z) = z^n - 1` for a radix-2
domain of size `n`. -/
def evaluate_vanishing_polynomial (d : Domain F) (z : F) : F :=
  z ^ d.size - 1

/-! ### Verifier-side evaluations (`proof_system/proof.rs`) -/

/-- The bundle of sixteen field-element evaluations carried by a `Proof`
(`ProofEvaluations` in `proof_system/proof.rs`). -/
structure ProofEvaluations (F : Type) where
  a_eval : F
  b_eval : F
  c_eval : F
  d_eval : F
  a_next_eval : F
  b_next_eval : F
  d_next_eval : F
  q_arith_eval : F
  q_c_eval : F
  q_l_eval : F
  q_r_eval : F
  left_sigma_eval : F
  right_sigma_eval : F
  out_sigma_eval : F
  linearisation_polynomial_eval : F
  permutation_eval : F

/-- `compute_first_lagrange_evaluation` (`proof_system/proof.rs`):
`L_1(z) = z_H(z) / (n * (z - 1))`, written as in the source with the
inverse of the denominator. -/
def compute_first_lagrange_evaluation (d : Domain F) (z_h_eval z_challenge : F) : F :=
  let n_fr : F := (d.size : F)
  let denom := n_fr * (z_challenge - 1)
  z_h_eval * denom⁻¹

/-- `compute_barycentric_eval` (`proof_system/proof.rs`): barycentric
evaluation of the interpolant of `evaluations` over the domain at
`point`, skipping zero evaluations.  `batch_inversion` inverts the
nonzero entries elementwise and leaves zeros unchanged, which agrees
with Mathlib's `⁻¹`. -/
def compute_barycentric_eval (evaluations : List F) (point : F) (d : Domain F) : F :=
  let numerator := evaluate_vanishing_polynomial d point * ((d.size : F))⁻¹
  let nonZero := (List.range evaluations.length).filter
    (fun i => evaluations.getD i 0 ≠ 0)
  let denominators := (nonZero.map (fun idx => (d.gen⁻¹ ^ idx) * point - 1)).map (·⁻¹)
  let result := ((List.range nonZero.length).map
    (fun i => denominators.getD i 0 * evaluations.getD (nonZero.getD i 0) 0)).sum
  result * numerator

/-- `Proof::compute_quotient_evaluation` (`proof_system/proof.rs`,
lines 347-388), computing the quotient evaluation `t(z)` from the
evaluations bundle, the public inputs and the challenges. -/
def compute_quotient_evaluation (d : Domain F) (pub_inputs : List F)
    (evals : ProofEvaluations F) (alpha beta gamma z_challenge : F)
    (z_h_eval l1_eval z_hat_eval : F) : F :=
  let pi_eval := compute_barycentric_eval pub_inputs z_challenge d
  let alpha_sq := alpha ^ 2
  let a := evals.linearisation_polynomial_eval + pi_eval
  let beta_sig1 := beta * evals.left_sigma_eval
  let b_0 := evals.a_eval + beta_sig1 + gamma
  let beta_sig2 := beta * evals.right_sigma_eval
  let b_1 := evals.b_eval + beta_sig2 + gamma
  let beta_sig3 := beta * evals.out_sigma_eval
  let b_2 := evals.c_eval + beta_sig3 + gamma
  let b_3 := (evals.d_eval + gamma) * z_hat_eval * alpha
  let b := b_0 * b_1 * b_2 * b_3
  let c := l1_eval * alpha_sq
  (a - b - c) * z_h_eval⁻¹

/-! ### Parallel zips

The source iterates with `izip!` over several equal-length vectors; the
following zips model those loops (like `izip!`, they truncate to the
shortest input). -/

def zip3With (f : α → β → γ → δ) : List α → List β → List γ → List δ
  | a :: as, b :: bs, c :: cs => f a b c :: zip3With f as bs cs
  | _, _, _ => []

def zip4With (f : α → β → γ → δ → ε) : List α → List β → List γ → List δ → List ε
  | a :: as, b :: bs, c :: cs, d :: ds => f a b c d :: zip4With f as bs cs ds
  | _, _, _, _ => []

def zip8With (f : α → α → α → α → α → α → α → α → β) :
    List α → List α → List α → List α → List α → List α → List α → List α → List β
  | a1 :: l1, a2 :: l2, a3 :: l3, a4 :: l4, a5 :: l5, a6 :: l6, a7 :: l7, a8 :: l8 =>
      f a1 a2 a3 a4 a5 a6 a7 a8 :: zip8With f l1 l2 l3 l4 l5 l6 l7 l8
  | _, _, _, _, _, _, _, _ => []

def zip12With (f : α → α → α → α → α → α → α → α → α → α → α → α → β)
    (l1 l2 l3 l4 l5 l6 l7 l8 l9 l10 l11 l12 : List α) : List β :=
  zip3With
    (fun p q r => f p.1 p.2.1 p.2.2.1 p.2.2.2 q.1 q.2.1 q.2.2.1 q.2.2.2
      r.1 r.2.1 r.2.2.1 r.2.2.2)
    (zip4With (fun a b c d => (a, b, c, d)) l1 l2 l3 l4)
    (zip4With (fun a b c d => (a, b, c, d)) l5 l6 l7 l8)
    (zip4With (fun a b c d => (a, b, c, d)) l9 l10 l11 l12)

/-- The running-product loop shared by the three grand-product
implementations: starting from `state`, multiply by each element in turn
and collect every intermediate product. -/
def accumulate (state : F) : List F → List F
  | [] => []
  | s :: rest => (state * s) :: accumulate (state * s) rest

/-! ### The grand-product computations (`permutation/mod.rs`) -/

/-- `Permutation::numerator_irreducible` (`permutation/mod.rs`, lines
640-642): `w + beta * k * root + gamma`. -/
def numerator_irreducible (root w k beta gamma : F) : F :=
  w + beta * k * root + gamma

/-- `Permutation::denominator_irreducible` (`permutation/mod.rs`, lines
644-652): `w + beta * sigma + gamma` (the root argument of the source is
unused and omitted here). -/
def denominator_irreducible (w sigma beta gamma : F) : F :=
  w + beta * sigma + gamma

/-- The per-gate contribution list of `compute_permutation_poly`
(`permutation/mod.rs`, lines 672-736): the sigma polynomials are FFT-ed
into evaluations, wires and sigma evaluations are transposed gatewise,
and each gate contributes
`numerator product * (denominator product)⁻¹`. -/
def product_argument (K1 K2 K3 : F) (d : Domain F)
    (w_l w_r w_o w_4 : List F) (beta gamma : F) (s1 s2 s3 s4 : List F) : List F :=
  let ks : List F := [1, K1, K2, K3]
  let sigma_mappings := (fft d s1, fft d s2, fft d s3, fft d s4)
  let gatewise_wires := zip4With (fun t0 t1 t2 t3 => [t0, t1, t2, t3]) w_l w_r w_o w_4
  let gatewise_sigmas := zip4With (fun t0 t1 t2 t3 => [t0, t1, t2, t3])
    sigma_mappings.1 sigma_mappings.2.1 sigma_mappings.2.2.1 sigma_mappings.2.2.2
  let roots := d.elements
  zip3With
    (fun gate_root gate_sigmas gate_wires =>
      let wire_params := gate_sigmas.zip (gate_wires.zip ks)
      ((wire_params.map
          (fun t => numerator_irreducible gate_root t.2.1 t.2.2 beta gamma)).prod)
        * ((wire_params.map
            (fun t => denominator_irreducible t.2.1 t.1 beta gamma)).prod)⁻¹)
    roots gatewise_sigmas gatewise_wires

/-- `Permutation::compute_permutation_poly` (`permutation/mod.rs`, lines
657-757).  The per-gate contributions are accumulated into the
length-`(n+1)` running product starting at `1`, the entry at index `n`
is removed, and the result is handed to the external inverse FFT (an
abstract parameter here, since the FFT engine is out of scope). -/
def compute_permutation_poly (K1 K2 K3 : F) (ifft : List F → List F) (d : Domain F)
    (w_l w_r w_o w_4 : List F) (beta gamma : F) (s1 s2 s3 s4 : List F) : List F :=
  let n := d.size
  let z := 1 :: accumulate 1 (product_argument K1 K2 K3 d w_l w_r w_o w_4 beta gamma s1 s2 s3 s4)
  ifft (z.eraseIdx n)

/-- The tuple of eight per-gate accumulator components of
`compute_fast_permutation_poly`. -/
structure AccComp (F : Type) where
  a1 : F
  a2 : F
  a3 : F
  a4 : F
  a5 : F
  a6 : F
  a7 : F
  a8 : F
deriving DecidableEq

/-- Componentwise product of two accumulator tuples (`prev.0 *=
current_component.0; …`). -/
def accMul (x y : AccComp F) : AccComp F :=
  ⟨x.a1 * y.a1, x.a2 * y.a2, x.a3 * y.a3, x.a4 * y.a4,
    x.a5 * y.a5, x.a6 * y.a6, x.a7 * y.a7, x.a8 * y.a8⟩

/-- Product of the eight components of one tuple (`let mut prev = 1;
prev *= c.0; …`). -/
def accProd (x : AccComp F) : F :=
  1 * x.a1 * x.a2 * x.a3 * x.a4 * x.a5 * x.a6 * x.a7 * x.a8

/-- The componentwise running product over the accumulator tuples. -/
def accScan (prev : AccComp F) : List (AccComp F) → List (AccComp F)
  | [] => []
  | x :: rest => accMul prev x :: accScan (accMul prev x) rest

/-- The all-ones tuple prepended to the accumulator components. -/
def onesComp : AccComp F :=
  ⟨1, 1, 1, 1, 1, 1, 1, 1⟩

/-- The eight per-gate accumulator components of
`compute_fast_permutation_poly` (`permutation/mod.rs`, lines 435-561):
four numerator factors and four inverted denominator factors per
gate. -/
def fast_components (K1 K2 K3 : F) (d : Domain F)
    (w_l w_r w_o w_4 : List F) (beta gamma : F) (s1 s2 s3 s4 : List F) :
    List (AccComp F) :=
  let common_roots := d.elements.map (· * beta)
  let beta_left_sigmas := (fft d s1).map (· * beta)
  let beta_right_sigmas := (fft d s2).map (· * beta)
  let beta_out_sigmas := (fft d s3).map (· * beta)
  let beta_fourth_sigmas := (fft d s4).map (· * beta)
  let beta_roots_k1 := common_roots.map (· * K1)
  let beta_roots_k2 := common_roots.map (· * K2)
  let beta_roots_k3 := common_roots.map (· * K3)
  let w_l_gamma := w_l.map (· + gamma)
  let w_r_gamma := w_r.map (· + gamma)
  let w_o_gamma := w_o.map (· + gamma)
  let w_4_gamma := w_4.map (· + gamma)
  zip12With
    (fun wlg wrg wog w4g br bk1 bk2 bk3 bls brs bos bfs =>
      AccComp.mk (wlg + br) (wrg + bk1) (wog + bk2) (w4g + bk3)
        (wlg + bls)⁻¹ (wrg + brs)⁻¹ (wog + bos)⁻¹ (w4g + bfs)⁻¹)
    w_l_gamma w_r_gamma w_o_gamma w_4_gamma
    common_roots beta_roots_k1 beta_roots_k2 beta_roots_k3
    beta_left_sigmas beta_right_sigmas beta_out_sigmas beta_fourth_sigmas

/-- `Permutation::compute_fast_permutation_poly` (`permutation/mod.rs`,
lines 417-636): the eight per-gate components are scanned into
componentwise running products with an all-ones tuple prepended, each
tuple is collapsed by multiplying its components, and the entry at index
`n` is removed. -/
def compute_fast_permutation_poly (K1 K2 K3 : F) (d : Domain F)
    (w_l w_r w_o w_4 : List F) (beta gamma : F) (s1 s2 s3 s4 : List F) : List F :=
  let n := d.size
  let scanned := accScan onesComp
    (onesComp :: fast_components K1 K2 K3 d w_l w_r w_o w_4 beta gamma s1 s2 s3 s4)
  let z := scanned.map accProd
  z.eraseIdx n

/-- The numerator partial components of
`compute_slow_permutation_poly` (`permutation/mod.rs`, lines 300-339):
per gate `(β·ω^j + w_l[j]+γ)·(K1·β·ω^j + w_r[j]+γ)·(K2·β·ω^j +
w_o[j]+γ)·(K3·β·ω^j + w_4[j]+γ)`. -/
def slow_numerator_components (K1 K2 K3 : F) (d : Domain F)
    (w_l w_r w_o w_4 : List F) (beta gamma : F) : List F :=
  let beta_roots := d.elements.map (fun root => root * beta)
  let beta_roots_k1 := d.elements.map (fun root => K1 * beta * root)
  let beta_roots_k2 := d.elements.map (fun root => K2 * beta * root)
  let beta_roots_k3 := d.elements.map (fun root => K3 * beta * root)
  let w_l_gamma := w_l.map (· + gamma)
  let w_r_gamma := w_r.map (· + gamma)
  let w_o_gamma := w_o.map (· + gamma)
  let w_4_gamma := w_4.map (· + gamma)
  zip8With
    (fun wlg wrg wog w4g br bk1 bk2 bk3 =>
      (br + wlg) * (bk1 + wrg) * (bk2 + wog) * (bk3 + w4g))
    w_l_gamma w_r_gamma w_o_gamma w_4_gamma
    beta_roots beta_roots_k1 beta_roots_k2 beta_roots_k3

/-- The denominator partial components of
`compute_slow_permutation_poly` (`permutation/mod.rs`, lines 341-382):
per gate `Π_wire (β·σ_wire(ω^j) + w_wire[j]+γ)`. -/
def slow_denominator_components (d : Domain F)
    (w_l w_r w_o w_4 : List F) (beta gamma : F) (s1 s2 s3 s4 : List F) : List F :=
  let beta_left_sigma := (fft d s1).map (· * beta)
  let beta_right_sigma := (fft d s2).map (· * beta)
  let beta_out_sigma := (fft d s3).map (· * beta)
  let beta_fourth_sigma := (fft d s4).map (· * beta)
  let w_l_gamma := w_l.map (· + gamma)
  let w_r_gamma := w_r.map (· + gamma)
  let w_o_gamma := w_o.map (· + gamma)
  let w_4_gamma := w_4.map (· + gamma)
  zip8With
    (fun wlg wrg wog w4g bls brs bos bfs =>
      (bls + wlg) * (brs + wrg) * (bos + wog) * (bfs + w4g))
    w_l_gamma w_r_gamma w_o_gamma w_4_gamma
    beta_left_sigma beta_right_sigma beta_out_sigma beta_fourth_sigma

/-- `Permutation::compute_slow_permutation_poly` (`permutation/mod.rs`,
lines 227-414): numerator and denominator partial components are
accumulated separately into running products starting at `1`; the
source then asserts that both coefficient vectors have length `n + 1`,
that their last entries `a` and `b` are nonzero, and that
`a * b⁻¹ = 1`; the index-`n` entries are removed and the vectors are
combined elementwise into `numerator * denominator⁻¹`.  A failing
assert (a Rust panic) is modelled by `none`. -/
def compute_slow_permutation_poly (K1 K2 K3 : F) (d : Domain F)
    (w_l w_r w_o w_4 : List F) (beta gamma : F) (s1 s2 s3 s4 : List F) :
    Option (List F × List F × List F) :=
  let n := d.size
  let numerator_components :=
    slow_numerator_components K1 K2 K3 d w_l w_r w_o w_4 beta gamma
  let denominator_components :=
    slow_denominator_components d w_l w_r w_o w_4 beta gamma s1 s2 s3 s4
  let numerator_coefficients := 1 :: accumulate 1 numerator_components
  let denominator_coefficients := 1 :: accumulate 1 denominator_components
  let a := numerator_coefficients.getLastD 1
  let b := denominator_coefficients.getLastD 1
  if numerator_coefficients.length = n + 1 ∧ denominator_coefficients.length = n + 1
      ∧ a ≠ 0 ∧ b ≠ 0 ∧ a * b⁻¹ = 1 then
    some (List.zipWith (fun num den => num * den⁻¹)
        (numerator_coefficients.eraseIdx n) (denominator_coefficients.eraseIdx n),
      numerator_components, denominator_components)
  else none

/-! ### The specified grand product -/

/-- The specified gate-`j` numerator
`N_j = Π_wire (w_wire[j] + β·k_wire·ω^j + γ)` with wire constants
`(1, K1, K2, K3)`. -/
def spec_numerator (K1 K2 K3 : F) (d : Domain F) (w_l w_r w_o w_4 : List F)
    (beta gamma : F) (j : Nat) : F :=
  (w_l.getD j 0 + beta * 1 * d.gen ^ j + gamma)
    * (w_r.getD j 0 + beta * K1 * d.gen ^ j + gamma)
    * (w_o.getD j 0 + beta * K2 * d.gen ^ j + gamma)
    * (w_4.getD j 0 + beta * K3 * d.gen ^ j + gamma)

/-- The specified gate-`j` denominator
`D_j = Π_wire (w_wire[j] + β·σ_wire(ω^j) + γ)`. -/
def spec_denominator (d : Domain F) (w_l w_r w_o w_4 : List F)
    (beta gamma : F) (s1 s2 s3 s4 : List F) (j : Nat) : F :=
  (w_l.getD j 0 + beta * evalPoly s1 (d.gen ^ j) + gamma)
    * (w_r.getD j 0 + beta * evalPoly s2 (d.gen ^ j) + gamma)
    * (w_o.getD j 0 + beta * evalPoly s3 (d.gen ^ j) + gamma)
    * (w_4.getD j 0 + beta * evalPoly s4 (d.gen ^ j) + gamma)

/-- The grand-product accumulator recurrence over abstract per-gate
numerators and denominators: `Z[0] = 1`, `Z[j+1] = Z[j] · N_j / D_j`. -/
def grandZ (NN DD : Nat → F) : Nat → F
  | 0 => 1
  | j + 1 => grandZ NN DD j * NN j / DD j

/-- The specified accumulator sequence: `Z[0] = 1`,
`Z[j+1] = Z[j] · N_j / D_j` with the specified numerators and
denominators. -/
def spec_Z (K1 K2 K3 : F) (d : Domain F) (w_l w_r w_o w_4 : List F)
    (beta gamma : F) (s1 s2 s3 s4 : List F) : Nat → F :=
  grandZ (spec_numerator K1 K2 K3 d w_l w_r w_o w_4 beta gamma)
    (spec_denominator d w_l w_r w_o w_4 beta gamma s1 s2 s3 s4)

/-! ### The composer state and preprocessing (`proof_system/preprocess.rs`) -/

/-- The error enumeration of `error.rs` (the variants not exercised by
the modelled code are kept for completeness of the interface). -/
inductive Error where
  | InvalidEvalDomainSize (log_size_of_group adacity : Nat)
  | ProofVerificationError
  | CircuitInputsNotFound
  | MismatchedPolyLen
  | ProofCommitmentError
deriving DecidableEq

/-- One wire slot `(wire, gate_index)` (`WireData` in
`constraint_system/mod.rs`, as used by `permutation/mod.rs`). -/
inductive WireData where
  | Left (index : Nat)
  | Right (index : Nat)
  | Output (index : Nat)
  | Fourth (index : Nat)
deriving DecidableEq

/-- The gate index carried by a wire slot. -/
def WireData.gateIndex : WireData → Nat
  | .Left i => i
  | .Right i => i
  | .Output i => i
  | .Fourth i => i

/-! ### Sigma permutations (`permutation/mod.rs`) -/

/-- The four sigma sequences `[sigma_1, sigma_2, sigma_3, sigma_4]`
being filled by `compute_sigma_permutations`. -/
structure Sigmas where
  s1 : List WireData
  s2 : List WireData
  s3 : List WireData
  s4 : List WireData
deriving DecidableEq

/-- The write `sigmas[wire][index] = next_wire` performed by
`compute_sigma_permutations` for a current wire slot. -/
def sigmaSet (s : Sigmas) : WireData → WireData → Sigmas
  | .Left index, next => { s with s1 := s.s1.set index next }
  | .Right index, next => { s with s2 := s.s2.set index next }
  | .Output index, next => { s with s3 := s.s3.set index next }
  | .Fourth index, next => { s with s4 := s.s4.set index next }

/-- Reading the sigma entry of a wire slot (out-of-range reads return
the slot itself, which never happens for well-formed inputs). -/
def sigmaLookup (s : Sigmas) : WireData → WireData
  | .Left index => s.s1.getD index (.Left index)
  | .Right index => s.s2.getD index (.Right index)
  | .Output index => s.s3.getD index (.Output index)
  | .Fourth index => s.s4.getD index (.Fourth index)

/-- The initial identity layout
`sigma_1 = [Left 0, …, Left (n-1)]`, …, `sigma_4 = [Fourth 0, …]`
(`permutation/mod.rs`, lines 117-120). -/
def identitySigmas (n : Nat) : Sigmas :=
  ⟨(List.range n).map .Left, (List.range n).map .Right,
    (List.range n).map .Output, (List.range n).map .Fourth⟩

/-- The inner loop of `compute_sigma_permutations` over one variable's
wire-slot list (`wire_data`): the slot at position `wire_index` is
mapped to the slot at the next position, wrapping to `0` at the end. -/
def applyWireRotation (wire_data : List WireData) :
    Nat → List WireData → Sigmas → Sigmas
  | _, [], s => s
  | wire_index, current_wire :: rest, s =>
    let next_index := if wire_index = wire_data.length - 1 then 0 else wire_index + 1
    let next_wire := wire_data.getD next_index current_wire
    applyWireRotation wire_data (wire_index + 1) rest (sigmaSet s current_wire next_wire)

/-- `Permutation::compute_sigma_permutations` (`permutation/mod.rs`,
lines 113-148): starting from the identity layout, every variable's
slot list is rotated by one into the sigma sequences.  The hash-map
iteration order of the source is an arbitrary order of the entries;
the theorems below hold for every order. -/
def compute_sigma_permutations (n : Nat)
    (variable_map : List (List WireData)) : Sigmas :=
  variable_map.foldl
    (fun s wire_data => applyWireRotation wire_data 0 wire_data s)
    (identitySigmas n)

/-- The four sigma sequences all have length `n`. -/
def SigLens (s : Sigmas) (n : Nat) : Prop :=
  s.s1.length = n ∧ s.s2.length = n ∧ s.s3.length = n ∧ s.s4.length = n

/-- A concrete variable map over four gates (the layout of the
`test_permutation_format` test of `permutation/mod.rs`): one variable in
five slots, the others in one slot each. -/
def vmapExample : List (List WireData) :=
  [[.Left 0, .Right 0, .Left 1, .Left 2, .Left 3],
   [.Right 1], [.Right 2], [.Right 3],
   [.Output 0], [.Output 1], [.Output 2], [.Output 3],
   [.Fourth 0, .Fourth 1, .Fourth 2, .Fourth 3]]

/-- The composer state (`StandardComposer`): gate count `n`, the eleven
selector vectors, the four wire vectors (wires are variable indices),
the witness assignment `variables` (indexed by variable), the
permutation variable map `perm` (slot list per variable, `Permutation`
in `permutation/mod.rs`), and the cached zero variable.  The witness
assignment map is called `variables` in the source; that name is a
reserved token in Lean, so the field is called `vars` here. -/
structure Composer (F : Type) where
  n : Nat
  q_m : List F
  q_l : List F
  q_r : List F
  q_o : List F
  q_4 : List F
  q_c : List F
  q_arith : List F
  q_range : List F
  q_logic : List F
  q_fixed_group_add : List F
  q_variable_group_add : List F
  w_l : List Nat
  w_r : List Nat
  w_o : List Nat
  w_4 : List Nat
  vars : List F
  perm : List (List WireData)
  zero_var : Nat
deriving DecidableEq

/-- `StandardComposer::pad` (`proof_system/preprocess.rs`, lines 56-82):
extend every selector vector by `diff` zeros, every wire vector by
`diff` copies of the zero variable, and add `diff` to `n`. -/
def Composer.pad (c : Composer F) (diff : Nat) : Composer F :=
  let zeroes_scalar := List.replicate diff (0 : F)
  let zeroes_var := List.replicate diff c.zero_var
  { c with
    q_m := c.q_m ++ zeroes_scalar
    q_l := c.q_l ++ zeroes_scalar
    q_r := c.q_r ++ zeroes_scalar
    q_o := c.q_o ++ zeroes_scalar
    q_c := c.q_c ++ zeroes_scalar
    q_4 := c.q_4 ++ zeroes_scalar
    q_arith := c.q_arith ++ zeroes_scalar
    q_range := c.q_range ++ zeroes_scalar
    q_logic := c.q_logic ++ zeroes_scalar
    q_fixed_group_add := c.q_fixed_group_add ++ zeroes_scalar
    q_variable_group_add := c.q_variable_group_add ++ zeroes_scalar
    w_l := c.w_l ++ zeroes_var
    w_r := c.w_r ++ zeroes_var
    w_o := c.w_o ++ zeroes_var
    w_4 := c.w_4 ++ zeroes_var
    n := c.n + diff }

/-- The condition checked by `check_poly_same_len`: every other selector
and wire vector has the length of `q_m`. -/
abbrev Composer.lensMatch (c : Composer F) : Prop :=
  c.q_o.length = c.q_m.length ∧ c.q_l.length = c.q_m.length
    ∧ c.q_r.length = c.q_m.length ∧ c.q_c.length = c.q_m.length
    ∧ c.q_4.length = c.q_m.length ∧ c.q_arith.length = c.q_m.length
    ∧ c.q_range.length = c.q_m.length ∧ c.q_logic.length = c.q_m.length
    ∧ c.q_fixed_group_add.length = c.q_m.length
    ∧ c.q_variable_group_add.length = c.q_m.length
    ∧ c.w_l.length = c.q_m.length ∧ c.w_r.length = c.q_m.length
    ∧ c.w_o.length = c.q_m.length ∧ c.w_4.length = c.q_m.length

/-- `StandardComposer::check_poly_same_len` (`preprocess.rs`, lines
86-108): every selector and wire vector must have the length of `q_m`,
otherwise `MismatchedPolyLen`. -/
def Composer.check_poly_same_len (c : Composer F) : Except Error Unit :=
  if c.lensMatch then .ok () else .error Error.MismatchedPolyLen

/-- The size of `GeneralEvaluationDomain::new(n)`: the least power of
two that is at least `n` (and at least `1`), computed with an explicit
fuel so that it evaluates by kernel reduction. -/
def domainSizeAux (n : Nat) : Nat → Nat → Nat
  | 0, p => p
  | f + 1, p => if n ≤ p then p else domainSizeAux n f (2 * p)

/-- The size of the evaluation domain built from a requested size `n`. -/
def domainSize (n : Nat) : Nat :=
  domainSizeAux n (n + 1) 1

/-- `StandardComposer::preprocess_shared` (`preprocess.rs`, lines
235-431), restricted to its effect on the composer state: the
evaluation domain is built from `circuit_size()`, then the length check
runs, and only then is the composer padded to the domain size.  The
subsequent interpolation and KZG commitments use external arithmetic and
do not mutate the composer, so the padded composer is returned. -/
def Composer.preprocess_shared (c : Composer F) : Except Error (Composer F) :=
  let dsize := domainSize c.n
  match c.check_poly_same_len with
  | .error e => .error e
  | .ok _ => .ok (c.pad (dsize - c.n))

/-- `StandardComposer::preprocess_prover` reaches the composer mutation
through `preprocess_shared`; the additional evaluation data it computes
lives in the prover key, not in the composer. -/
def Composer.preprocess_prover (c : Composer F) : Except Error (Composer F) :=
  c.preprocess_shared

/-- `StandardComposer::preprocess_verifier` likewise delegates the
composer mutation to `preprocess_shared`. -/
def Composer.preprocess_verifier (c : Composer F) : Except Error (Composer F) :=
  c.preprocess_shared

/-- A concrete composer of size 3 over `Fin 5` used to witness the
preprocessing theorem. -/
def composerExample : Composer (Fin 5) :=
  ⟨3, [1, 2, 3], [0, 1, 0], [1, 1, 1], [2, 0, 0], [0, 0, 0], [4, 4, 4],
    [1, 1, 1], [0, 0, 0], [0, 0, 0], [0, 0, 0], [0, 0, 0],
    [0, 1, 1], [0, 1, 2], [0, 2, 2], [0, 0, 0], [0, 1, 2], [[], [], []], 0⟩

/-! ### Range gate (`constraint_system/range.rs`) -/

/-- `StandardComposer::add_input(v)`: registers a fresh variable bound
to the value `v` and gives it an empty slot list in the permutation's
variable map; the new variable index is returned. -/
def add_input (c : Composer F) (v : F) : Composer F × Nat :=
  ({ c with vars := c.vars ++ [v], perm := c.perm ++ [[]] }, c.perm.length)

/-- `Permutation::add_variable_to_map(var, wire_data)`: append one wire
slot to the variable's slot list. -/
def perm_add (c : Composer F) (var : Nat) (wd : WireData) : Composer F :=
  { c with perm := c.perm.set var ((c.perm.getD var []) ++ [wd]) }

/-- The `add_wire` closure of `range_gate` (`range.rs`, lines 33-60):
the `i`-th accumulator is pushed onto the wire selected by `i % 4`
(fourth, output, right, left in that order), at gate index
`circuit_size() + i / 4`, and registered in the permutation map. -/
def add_wire (c : Composer F) (i : Nat) (variable_arg : Nat) : Composer F :=
  let gate_index := c.n + i / 4
  match i % 4 with
  | 0 => perm_add { c with w_4 := c.w_4 ++ [variable_arg] } variable_arg
      (.Fourth gate_index)
  | 1 => perm_add { c with w_o := c.w_o ++ [variable_arg] } variable_arg
      (.Output gate_index)
  | 2 => perm_add { c with w_r := c.w_r ++ [variable_arg] } variable_arg
      (.Right gate_index)
  | _ => perm_add { c with w_l := c.w_l ++ [variable_arg] } variable_arg
      (.Left gate_index)

/-- Modelled from the spec: `assert_equal(x, y)` of
`constraint_system/composer.rs` (not part of the sources) emits one
gate constraining `x - y = 0` through the permutation, not through
selectors.  The row carries `x` and `y` on the left and right wires,
the zero variable on the other two, all selectors zero, and all four
slots are registered in the copy chain. -/
def assert_equal (c : Composer F) (x y : Nat) : Composer F :=
  let row := c.n
  let c1 := { c with
    q_m := c.q_m ++ [0], q_l := c.q_l ++ [0], q_r := c.q_r ++ [0],
    q_o := c.q_o ++ [0], q_4 := c.q_4 ++ [0], q_c := c.q_c ++ [0],
    q_arith := c.q_arith ++ [0], q_range := c.q_range ++ [0],
    q_logic := c.q_logic ++ [0],
    q_fixed_group_add := c.q_fixed_group_add ++ [0],
    q_variable_group_add := c.q_variable_group_add ++ [0],
    w_l := c.w_l ++ [x], w_r := c.w_r ++ [y],
    w_o := c.w_o ++ [c.zero_var], w_4 := c.w_4 ++ [c.zero_var],
    n := c.n + 1 }
  perm_add (perm_add (perm_add (perm_add c1 x (.Left row)) y (.Right row))
    c.zero_var (.Output row)) c.zero_var (.Fourth row)

/-- The padding loop of `range_gate` (`range.rs`, lines 144-146): the
first `pad` accumulator positions are filled with the zero variable. -/
def rangePad (c : Composer F) (pad : Nat) : Composer F :=
  (List.range pad).foldl (fun acc i => add_wire acc i acc.zero_var) c

/-- The accumulator loop of `range_gate` (`range.rs`, lines 148-163)
over the remaining positions: each pair of bits forms a quad, the
running accumulator is `4·acc + quad`, and the accumulator is
registered as a fresh variable and wired in.  An out-of-range bit
access (`bits[bit_index]`) is the source's slice-indexing panic,
returned as `none`. -/
def rangeQuadLoop (bits : List Bool) (num_quads : Nat) :
    List Nat → Composer F × F × List Nat → Option (Composer F × F × List Nat)
  | [], st => some st
  | i :: is, (c, acc, accs) =>
    match bits[(num_quads - i) * 2]?, bits[(num_quads - i) * 2 + 1]? with
    | some q_0, some q_1 =>
      let quad : F := (if q_0 then 1 else 0) + 2 * (if q_1 then 1 else 0)
      let accumulator := 4 * acc + quad
      let accumulator_var := (add_input c accumulator).2
      rangeQuadLoop bits num_quads is
        (add_wire (add_input c accumulator).1 i accumulator_var,
          accumulator, accs ++ [accumulator_var])
    | _, _ => none

/-- `last_mut().unwrap() = v` on a vector: replace the last element. -/
def setLast {α : Type} (l : List α) (v : α) : List α := l.set (l.length - 1) v

/-- `num_gates` of `range_gate` (`range.rs`, lines 76-86):
`num_bits >> 3`, plus one when `num_bits % 8 != 0`. -/
def rangeNumGates (num_bits : Nat) : Nat :=
  num_bits / 8 + (if num_bits % 8 ≠ 0 then 1 else 0)

/-- `num_quads = num_gates * 4` (`range.rs`, line 91). -/
def rangeNumQuads (num_bits : Nat) : Nat := rangeNumGates num_bits * 4

/-- `pad = 1 + ((num_quads << 1) - num_bits) >> 1` (`range.rs`, line
130), with the shifts written `* 2` and `/ 2`. -/
def rangePadCount (num_bits : Nat) : Nat :=
  1 + ((rangeNumQuads num_bits * 2 - num_bits) / 2)

/-- The selector/wire epilogue of `range_gate` (`range.rs`, lines
165-189): the eleven selector vectors are extended by `used_gates`
entries (`zeros`, and `ones` for `q_range`), `n` grows by
`used_gates`, the last `q_range` entry is switched off
(`last_mut().unwrap()` cannot fail since `used_gates ≥ 1`), and the
zero variable is pushed on the left, right and output wires of the
last row. -/
def rangeSelectors (c2 : Composer F) (used_gates : Nat) : Composer F :=
  { c2 with
    q_m := c2.q_m ++ List.replicate used_gates 0,
    q_l := c2.q_l ++ List.replicate used_gates 0,
    q_r := c2.q_r ++ List.replicate used_gates 0,
    q_o := c2.q_o ++ List.replicate used_gates 0,
    q_c := c2.q_c ++ List.replicate used_gates 0,
    q_arith := c2.q_arith ++ List.replicate used_gates 0,
    q_4 := c2.q_4 ++ List.replicate used_gates 0,
    q_fixed_group_add := c2.q_fixed_group_add ++ List.replicate used_gates 0,
    q_variable_group_add :=
      c2.q_variable_group_add ++ List.replicate used_gates 0,
    q_range := setLast (c2.q_range ++ List.replicate used_gates 1) 0,
    q_logic := c2.q_logic ++ List.replicate used_gates 0,
    n := c2.n + used_gates,
    w_l := c2.w_l ++ [c2.zero_var],
    w_r := c2.w_r ++ [c2.zero_var],
    w_o := c2.w_o ++ [c2.zero_var] }

/-- `StandardComposer::range_gate` (`range.rs`, lines 30-197) up to the
final `assert_equal`.  `witness` is a variable index; `reprBits`
abstracts the external `into_repr().to_bits_le()` (the fixed-length
little-endian bit vector of a field element; the witness lookup
`self.variables[&witness]` is modelled as total, witnesses being
registered variables).  The `assert!(num_bits % 2 == 0)` is the guard
of the outer `if`; the loop `for i in pad..=num_quads` is the index
list `range' pad (num_quads + 1 - pad)`.  The local `accumulators`
vector is returned alongside the composer for specification purposes
(the source drops it). -/
def range_gate_block (c : Composer F) (witness num_bits : Nat)
    (reprBits : F → List Bool) : Option (Composer F × List Nat) :=
  if num_bits % 2 = 0 then
    match rangeQuadLoop (reprBits (c.vars.getD witness 0))
        (rangeNumQuads num_bits)
        (List.range' (rangePadCount num_bits)
          (rangeNumQuads num_bits + 1 - rangePadCount num_bits))
        (rangePad c (rangePadCount num_bits), 0, []) with
    | none => none
    | some (c2, _, accumulators) =>
      some (rangeSelectors c2 (rangeNumGates num_bits + 1), accumulators)
  else none

/-- `StandardComposer::range_gate` (`range.rs`, lines 30-197): the
range block followed by `assert_equal(accumulators[accumulators.len() - 1],
witness)`.  When the accumulator vector is empty, `len() - 1`
underflows and the indexing panics, returned as `none`. -/
def range_gate (c : Composer F) (witness num_bits : Nat)
    (reprBits : F → List Bool) : Option (Composer F) :=
  match range_gate_block c witness num_bits reprBits with
  | none => none
  | some (c3, accumulators) =>
    match accumulators.getLast? with
    | none => none
    | some last_accumulator => some (assert_equal c3 last_accumulator witness)

/-- The composer fields not touched by the accumulator loops of
`range_gate`: gate count, zero variable and the eleven selectors. -/
def SameCore (a b : Composer F) : Prop :=
  a.n = b.n ∧ a.zero_var = b.zero_var ∧ a.q_m = b.q_m ∧ a.q_l = b.q_l
    ∧ a.q_r = b.q_r ∧ a.q_o = b.q_o ∧ a.q_4 = b.q_4 ∧ a.q_c = b.q_c
    ∧ a.q_arith = b.q_arith ∧ a.q_range = b.q_range ∧ a.q_logic = b.q_logic
    ∧ a.q_fixed_group_add = b.q_fixed_group_add
    ∧ a.q_variable_group_add = b.q_variable_group_add

/-! ### Fiat-Shamir challenge derivation (`transcript.rs`) -/

/-- Modelled from the spec: the Merlin transcript primitive is an
out-of-scope external collaborator.  Its `challenge_bytes` output is an
abstract byte stream together with a count of the bytes drawn so far. -/
structure TranscriptState where
  stream : Nat → Fin 256
  drawn : Nat

/-- `Transcript::challenge_bytes(label, buf)` filling a buffer of `k`
bytes: the next `k` bytes of the stream are drawn. -/
def challenge_bytes (t : TranscriptState) (k : Nat) : List (Fin 256) × TranscriptState :=
  ((List.range k).map (fun j => t.stream (t.drawn + j)), ⟨t.stream, t.drawn + k⟩)

/-- `TranscriptProtocol::challenge_scalar` (`transcript.rs`, lines
86-93): allocates a buffer of `size_in_bits() / 8` bytes, fills it from
the transcript and converts it with `from_random_bytes`.  The byte-count
`field_bits / 8` is the source's integer (floor) division; the
conversion function is the external `F::from_random_bytes`. -/
def challenge_scalar (from_random_bytes : List (Fin 256) → F)
    (field_bits : Nat) (t : TranscriptState) : F × TranscriptState :=
  let size := field_bits / 8
  let p := challenge_bytes t size
  (from_random_bytes p.1, p.2)

end ArkPlonk

namespace ArkPlonk

variable {F : Type} [Field F] [DecidableEq F]

/-! ### List toolkit -/

theorem getD_of_lt {α : Type} (l : List α) (i : Nat) (d : α) (h : i < l.length) :
    l.getD i d = l.get ⟨i, h⟩ := by
  simp [List.getD_eq_getElem?_getD, List.getElem?_eq_getElem h]

theorem getD_ext {α : Type} (x : α) :
    ∀ (a b : List α), a.length = b.length →
      (∀ i, i < a.length → a.getD i x = b.getD i x) → a = b := by
  intro a
  induction a with
  | nil =>
    intro b hlen _
    cases b with
    | nil => rfl
    | cons y ys => simp at hlen
  | cons p ps ih =>
    intro b hlen hp
    cases b with
    | nil => simp at hlen
    | cons y ys =>
      have h0 := hp 0 (by simp)
      simp only [List.getD_cons_zero] at h0
      have htail : ps = ys := by
        refine ih ys (by simpa using hlen) ?_
        intro i hi
        have := hp (i + 1) (by simpa using Nat.succ_lt_succ hi)
        simpa only [List.getD_cons_succ] using this
      rw [h0, htail]

theorem getD_range_map {α : Type} (g : Nat → α) (n i : Nat) (d : α) (h : i < n) :
    ((List.range n).map g).getD i d = g i := by
  have h1 : i < ((List.range n).map g).length := by simpa using h
  rw [getD_of_lt _ _ _ h1]
  simp

theorem getD_map_of_lt {α β : Type} (l : List α) (f : α → β) (i : Nat) (d : β) (d0 : α)
    (h : i < l.length) :
    (l.map f).getD i d = f (l.getD i d0) := by
  have h1 : i < (l.map f).length := by simpa using h
  rw [getD_of_lt _ _ _ h1, getD_of_lt _ _ _ h]
  simp

theorem take_succ_getD {α : Type} (l : List α) (i : Nat) (d : α) (h : i < l.length) :
    l.take (i + 1) = l.take i ++ [l.getD i d] := by
  rw [List.take_succ, getD_of_lt _ _ _ h]
  simp [List.getElem?_eq_getElem h]

theorem eraseIdx_of_length_succ {α : Type} (l : List α) (n : Nat)
    (h : l.length = n + 1) : l.eraseIdx n = l.take n := by
  rw [List.eraseIdx_eq_take_drop_succ, List.drop_eq_nil_of_le (by omega)]
  simp

/-- Unfolding for the parallel zips on `cons` cells. -/
theorem zip3With_cons {α β γ δ : Type} (f : α → β → γ → δ)
    (a : α) (as : List α) (b : β) (bs : List β) (c : γ) (cs : List γ) :
    zip3With f (a :: as) (b :: bs) (c :: cs) = f a b c :: zip3With f as bs cs := rfl

theorem zip3With_eq_map {α β γ δ : Type} (f : α → β → γ → δ) (da : α) (db : β) (dc : γ) :
    ∀ (a : List α) (b : List β) (c : List γ) (n : Nat),
      a.length = n → b.length = n → c.length = n →
      zip3With f a b c
        = (List.range n).map (fun i => f (a.getD i da) (b.getD i db) (c.getD i dc)) := by
  intro a
  induction a with
  | nil =>
    intro b c n ha _ _
    cases n with
    | zero => cases b <;> cases c <;> rfl
    | succ m => simp at ha
  | cons x xs ih =>
    intro b c n ha hb hc
    cases n with
    | zero => simp at ha
    | succ m =>
      cases b with
      | nil => simp at hb
      | cons y ys =>
        cases c with
        | nil => simp at hc
        | cons z zs =>
          rw [zip3With_cons, List.range_succ_eq_map, List.map_cons, List.map_map]
          simp only [List.getD_cons_zero]
          congr 1
          rw [ih ys zs m (by simpa using ha) (by simpa using hb) (by simpa using hc)]
          apply List.map_congr_left
          intro i _
          simp [List.getD_cons_succ]

theorem zip4With_cons {α β γ δ ε : Type} (f : α → β → γ → δ → ε)
    (a : α) (as : List α) (b : β) (bs : List β) (c : γ) (cs : List γ)
    (d : δ) (ds : List δ) :
    zip4With f (a :: as) (b :: bs) (c :: cs) (d :: ds)
      = f a b c d :: zip4With f as bs cs ds := rfl

theorem zip4With_eq_map {α β γ δ ε : Type} (f : α → β → γ → δ → ε)
    (da : α) (db : β) (dc : γ) (dd : δ) :
    ∀ (a : List α) (b : List β) (c : List γ) (d : List δ) (n : Nat),
      a.length = n → b.length = n → c.length = n → d.length = n →
      zip4With f a b c d
        = (List.range n).map
            (fun i => f (a.getD i da) (b.getD i db) (c.getD i dc) (d.getD i dd)) := by
  intro a
  induction a with
  | nil =>
    intro b c d n ha _ _ _
    cases n with
    | zero => cases b <;> cases c <;> cases d <;> rfl
    | succ m => simp at ha
  | cons x xs ih =>
    intro b c d n ha hb hc hd
    cases n with
    | zero => simp at ha
    | succ m =>
      cases b with
      | nil => simp at hb
      | cons y ys =>
        cases c with
        | nil => simp at hc
        | cons z zs =>
          cases d with
          | nil => simp at hd
          | cons u us =>
            rw [zip4With_cons, List.range_succ_eq_map, List.map_cons, List.map_map]
            simp only [List.getD_cons_zero]
            congr 1
            rw [ih ys zs us m (by simpa using ha) (by simpa using hb)
              (by simpa using hc) (by simpa using hd)]
            apply List.map_congr_left
            intro i _
            simp [List.getD_cons_succ]

theorem zip8With_cons {α β : Type} (f : α → α → α → α → α → α → α → α → β)
    (a1 : α) (l1 : List α) (a2 : α) (l2 : List α) (a3 : α) (l3 : List α)
    (a4 : α) (l4 : List α) (a5 : α) (l5 : List α) (a6 : α) (l6 : List α)
    (a7 : α) (l7 : List α) (a8 : α) (l8 : List α) :
    zip8With f (a1 :: l1) (a2 :: l2) (a3 :: l3) (a4 :: l4)
        (a5 :: l5) (a6 :: l6) (a7 :: l7) (a8 :: l8)
      = f a1 a2 a3 a4 a5 a6 a7 a8 :: zip8With f l1 l2 l3 l4 l5 l6 l7 l8 := rfl

theorem zip8With_eq_map {α β : Type} (f : α → α → α → α → α → α → α → α → β) (da : α) :
    ∀ (l1 l2 l3 l4 l5 l6 l7 l8 : List α) (n : Nat),
      l1.length = n → l2.length = n → l3.length = n → l4.length = n →
      l5.length = n → l6.length = n → l7.length = n → l8.length = n →
      zip8With f l1 l2 l3 l4 l5 l6 l7 l8
        = (List.range n).map
            (fun i => f (l1.getD i da) (l2.getD i da) (l3.getD i da) (l4.getD i da)
              (l5.getD i da) (l6.getD i da) (l7.getD i da) (l8.getD i da)) := by
  intro l1
  induction l1 with
  | nil =>
    intro l2 l3 l4 l5 l6 l7 l8 n h1 _ _ _ _ _ _ _
    cases n with
    | zero =>
      cases l2 <;> cases l3 <;> cases l4 <;> cases l5 <;> cases l6 <;> cases l7
        <;> cases l8 <;> rfl
    | succ m => simp at h1
  | cons x xs ih =>
    intro l2 l3 l4 l5 l6 l7 l8 n h1 h2 h3 h4 h5 h6 h7 h8
    cases n with
    | zero => simp at h1
    | succ m =>
      cases l2 with
      | nil => simp at h2
      | cons x2 t2 =>
        cases l3 with
        | nil => simp at h3
        | cons x3 t3 =>
          cases l4 with
          | nil => simp at h4
          | cons x4 t4 =>
            cases l5 with
            | nil => simp at h5
            | cons x5 t5 =>
              cases l6 with
              | nil => simp at h6
              | cons x6 t6 =>
                cases l7 with
                | nil => simp at h7
                | cons x7 t7 =>
                  cases l8 with
                  | nil => simp at h8
                  | cons x8 t8 =>
                    rw [zip8With_cons, List.range_succ_eq_map, List.map_cons,
                      List.map_map]
                    simp only [List.getD_cons_zero]
                    congr 1
                    rw [ih t2 t3 t4 t5 t6 t7 t8 m (by simpa using h1)
                      (by simpa using h2) (by simpa using h3) (by simpa using h4)
                      (by simpa using h5) (by simpa using h6) (by simpa using h7)
                      (by simpa using h8)]
                    apply List.map_congr_left
                    intro i _
                    simp [List.getD_cons_succ]

theorem zip12With_eq_map {α β : Type}
    (f : α → α → α → α → α → α → α → α → α → α → α → α → β) (da : α)
    (l1 l2 l3 l4 l5 l6 l7 l8 l9 l10 l11 l12 : List α) (n : Nat)
    (h1 : l1.length = n) (h2 : l2.length = n) (h3 : l3.length = n)
    (h4 : l4.length = n) (h5 : l5.length = n) (h6 : l6.length = n)
    (h7 : l7.length = n) (h8 : l8.length = n) (h9 : l9.length = n)
    (h10 : l10.length = n) (h11 : l11.length = n) (h12 : l12.length = n) :
    zip12With f l1 l2 l3 l4 l5 l6 l7 l8 l9 l10 l11 l12
      = (List.range n).map
          (fun i => f (l1.getD i da) (l2.getD i da) (l3.getD i da) (l4.getD i da)
            (l5.getD i da) (l6.getD i da) (l7.getD i da) (l8.getD i da)
            (l9.getD i da) (l10.getD i da) (l11.getD i da) (l12.getD i da)) := by
  rw [zip12With,
    zip4With_eq_map (fun a b c d => (a, b, c, d)) da da da da l1 l2 l3 l4 n h1 h2 h3 h4,
    zip4With_eq_map (fun a b c d => (a, b, c, d)) da da da da l5 l6 l7 l8 n h5 h6 h7 h8,
    zip4With_eq_map (fun a b c d => (a, b, c, d)) da da da da l9 l10 l11 l12 n h9 h10 h11 h12,
    zip3With_eq_map _ (da, da, da, da) (da, da, da, da) (da, da, da, da) _ _ _ n
      (by simp) (by simp) (by simp)]
  apply List.map_congr_left
  intro i hi
  have hi2 : i < n := List.mem_range.mp hi
  rw [getD_range_map _ _ _ _ hi2, getD_range_map _ _ _ _ hi2, getD_range_map _ _ _ _ hi2]

theorem list_eq_range_map {α : Type} (d : α) (l : List α) (n : Nat) (h : l.length = n) :
    l = (List.range n).map (fun i => l.getD i d) := by
  apply getD_ext d
  · simp [h]
  · intro i hi
    rw [getD_range_map _ _ _ _ (by omega : i < n)]

theorem zip3With_range_maps {α β γ δ : Type} (f : α → β → γ → δ)
    (da : α) (db : β) (dc : γ) (g1 : Nat → α) (g2 : Nat → β) (g3 : Nat → γ) (n : Nat) :
    zip3With f ((List.range n).map g1) ((List.range n).map g2) ((List.range n).map g3)
      = (List.range n).map (fun i => f (g1 i) (g2 i) (g3 i)) := by
  rw [zip3With_eq_map f da db dc _ _ _ n (by simp) (by simp) (by simp)]
  apply List.map_congr_left
  intro i hi
  have hi2 : i < n := List.mem_range.mp hi
  rw [getD_range_map _ _ _ _ hi2, getD_range_map _ _ _ _ hi2, getD_range_map _ _ _ _ hi2]

theorem zip4With_range_maps {α β γ δ ε : Type} (f : α → β → γ → δ → ε)
    (da : α) (db : β) (dc : γ) (dd : δ)
    (g1 : Nat → α) (g2 : Nat → β) (g3 : Nat → γ) (g4 : Nat → δ) (n : Nat) :
    zip4With f ((List.range n).map g1) ((List.range n).map g2)
        ((List.range n).map g3) ((List.range n).map g4)
      = (List.range n).map (fun i => f (g1 i) (g2 i) (g3 i) (g4 i)) := by
  rw [zip4With_eq_map f da db dc dd _ _ _ _ n (by simp) (by simp) (by simp) (by simp)]
  apply List.map_congr_left
  intro i hi
  have hi2 : i < n := List.mem_range.mp hi
  rw [getD_range_map _ _ _ _ hi2, getD_range_map _ _ _ _ hi2,
    getD_range_map _ _ _ _ hi2, getD_range_map _ _ _ _ hi2]

theorem zip8With_range_maps {α β : Type} (f : α → α → α → α → α → α → α → α → β)
    (da : α) (g1 g2 g3 g4 g5 g6 g7 g8 : Nat → α) (n : Nat) :
    zip8With f ((List.range n).map g1) ((List.range n).map g2)
        ((List.range n).map g3) ((List.range n).map g4) ((List.range n).map g5)
        ((List.range n).map g6) ((List.range n).map g7) ((List.range n).map g8)
      = (List.range n).map
          (fun i => f (g1 i) (g2 i) (g3 i) (g4 i) (g5 i) (g6 i) (g7 i) (g8 i)) := by
  rw [zip8With_eq_map f da _ _ _ _ _ _ _ _ n (by simp) (by simp) (by simp) (by simp)
    (by simp) (by simp) (by simp) (by simp)]
  apply List.map_congr_left
  intro i hi
  have hi2 : i < n := List.mem_range.mp hi
  rw [getD_range_map _ _ _ _ hi2, getD_range_map _ _ _ _ hi2,
    getD_range_map _ _ _ _ hi2, getD_range_map _ _ _ _ hi2,
    getD_range_map _ _ _ _ hi2, getD_range_map _ _ _ _ hi2,
    getD_range_map _ _ _ _ hi2, getD_range_map _ _ _ _ hi2]

theorem zip12With_range_maps {α β : Type}
    (f : α → α → α → α → α → α → α → α → α → α → α → α → β)
    (da : α) (g1 g2 g3 g4 g5 g6 g7 g8 g9 g10 g11 g12 : Nat → α) (n : Nat) :
    zip12With f ((List.range n).map g1) ((List.range n).map g2)
        ((List.range n).map g3) ((List.range n).map g4) ((List.range n).map g5)
        ((List.range n).map g6) ((List.range n).map g7) ((List.range n).map g8)
        ((List.range n).map g9) ((List.range n).map g10) ((List.range n).map g11)
        ((List.range n).map g12)
      = (List.range n).map
          (fun i => f (g1 i) (g2 i) (g3 i) (g4 i) (g5 i) (g6 i) (g7 i) (g8 i)
            (g9 i) (g10 i) (g11 i) (g12 i)) := by
  rw [zip12With_eq_map f da _ _ _ _ _ _ _ _ _ _ _ _ n (by simp) (by simp) (by simp)
    (by simp) (by simp) (by simp) (by simp) (by simp) (by simp) (by simp) (by simp)
    (by simp)]
  apply List.map_congr_left
  intro i hi
  have hi2 : i < n := List.mem_range.mp hi
  rw [getD_range_map _ _ _ _ hi2, getD_range_map _ _ _ _ hi2,
    getD_range_map _ _ _ _ hi2, getD_range_map _ _ _ _ hi2,
    getD_range_map _ _ _ _ hi2, getD_range_map _ _ _ _ hi2,
    getD_range_map _ _ _ _ hi2, getD_range_map _ _ _ _ hi2,
    getD_range_map _ _ _ _ hi2, getD_range_map _ _ _ _ hi2,
    getD_range_map _ _ _ _ hi2, getD_range_map _ _ _ _ hi2]

/-! ### Running products -/

theorem accumulate_length : ∀ (l : List F) (st : F),
    (accumulate st l).length = l.length := by
  intro l
  induction l with
  | nil => intro st; rfl
  | cons s r ih => intro st; simp [accumulate, ih]

theorem accumulate_eq_map : ∀ (l : List F) (st : F),
    accumulate st l = (List.range l.length).map (fun i => st * (l.take (i + 1)).prod) := by
  intro l
  induction l with
  | nil => intro st; simp [accumulate]
  | cons s r ih =>
    intro st
    rw [show accumulate st (s :: r) = (st * s) :: accumulate (st * s) r from rfl]
    rw [List.length_cons, List.range_succ_eq_map, List.map_cons, List.map_map]
    congr 1
    · simp
    · rw [ih (st * s)]
      apply List.map_congr_left
      intro i _
      simp [List.take_succ_cons, mul_assoc]

theorem runningProds_eq_map (l : List F) :
    (1 : F) :: accumulate 1 l
      = (List.range (l.length + 1)).map (fun i => (l.take i).prod) := by
  rw [List.range_succ_eq_map, List.map_cons, List.map_map]
  congr 1
  rw [accumulate_eq_map l 1]
  apply List.map_congr_left
  intro i _
  simp

theorem runningProds_erase (l : List F) (n : Nat) (h : l.length = n) :
    ((1 : F) :: accumulate 1 l).eraseIdx n
      = (List.range n).map (fun i => (l.take i).prod) := by
  subst h
  rw [runningProds_eq_map, eraseIdx_of_length_succ _ _ (by simp), ← List.map_take,
    List.take_range]
  have hmin : min l.length (l.length + 1) = l.length := by omega
  rw [hmin]

theorem take_prod_range_map (g : Nat → F) (n j : Nat) (h : j ≤ n) :
    ((((List.range n).map g).take j)).prod = ((List.range j).map g).prod := by
  rw [← List.map_take, List.take_range]
  have hmin : min j n = j := by omega
  rw [hmin]

theorem range_map_prod_succ (g : Nat → F) (j : Nat) :
    ((List.range (j + 1)).map g).prod = ((List.range j).map g).prod * g j := by
  rw [List.range_succ, List.map_append, List.prod_append]
  simp

/-- The evaluations produced by the external FFT interface, as a map
over gate indices. -/
theorem fft_eq_map (d : Domain F) (p : List F) :
    fft d p = (List.range d.size).map (fun j => evalPoly p (d.gen ^ j)) := by
  rw [fft, Domain.elements, List.map_map]
  rfl

theorem range_map_prod_eq_grandZ (G NN DD : Nat → F) :
    ∀ (m : Nat), (∀ j, j < m → G j = NN j * (DD j)⁻¹) →
      ((List.range m).map G).prod = grandZ NN DD m := by
  intro m
  induction m with
  | zero => intro _; simp [grandZ]
  | succ j ih =>
    intro hG
    rw [range_map_prod_succ, ih (fun k hk => hG k (by omega)), hG j (by omega)]
    rw [show grandZ NN DD (j + 1) = grandZ NN DD j * NN j / DD j from rfl]
    rw [div_eq_mul_inv, mul_assoc]

/-! ### Theorems for C2 and C10 -/

/-- Shared helper: the per-gate contributions of
`compute_permutation_poly` are the specified `N_j · D_j⁻¹`. -/
theorem product_argument_eq (K1 K2 K3 : F) (d : Domain F)
    (w_l w_r w_o w_4 : List F) (beta gamma : F) (s1 s2 s3 s4 : List F)
    (hl : w_l.length = d.size) (hr : w_r.length = d.size)
    (ho : w_o.length = d.size) (h4 : w_4.length = d.size) :
    product_argument K1 K2 K3 d w_l w_r w_o w_4 beta gamma s1 s2 s3 s4
      = (List.range d.size).map
          (fun j => spec_numerator K1 K2 K3 d w_l w_r w_o w_4 beta gamma j
            * (spec_denominator d w_l w_r w_o w_4 beta gamma s1 s2 s3 s4 j)⁻¹) := by
  simp only [product_argument]
  rw [fft_eq_map, fft_eq_map, fft_eq_map, fft_eq_map]
  have hw : zip4With (fun t0 t1 t2 t3 => [t0, t1, t2, t3]) w_l w_r w_o w_4
      = (List.range d.size).map
          (fun i => [w_l.getD i 0, w_r.getD i 0, w_o.getD i 0, w_4.getD i 0]) :=
    zip4With_eq_map _ 0 0 0 0 _ _ _ _ _ hl hr ho h4
  rw [hw]
  rw [zip4With_range_maps (fun t0 t1 t2 t3 => [t0, t1, t2, t3]) (0 : F) 0 0 0]
  rw [show d.elements = (List.range d.size).map (fun j => d.gen ^ j) from rfl]
  rw [zip3With_range_maps _ (0 : F) ([] : List F) ([] : List F)]
  apply List.map_congr_left
  intro j hj
  simp only [List.zip_cons_cons, List.zip_nil_right, List.map_cons, List.map_nil,
    List.prod_cons, List.prod_nil, numerator_irreducible, denominator_irreducible,
    spec_numerator, spec_denominator]
  ring

/-- Shared helper: `compute_permutation_poly` equals the inverse FFT of
the specified accumulator sequence. -/
theorem permutation_poly_eq_ifft_specZ (K1 K2 K3 : F) (ifft : List F → List F)
    (d : Domain F) (w_l w_r w_o w_4 : List F) (beta gamma : F) (s1 s2 s3 s4 : List F)
    (hl : w_l.length = d.size) (hr : w_r.length = d.size)
    (ho : w_o.length = d.size) (h4 : w_4.length = d.size) :
    compute_permutation_poly K1 K2 K3 ifft d w_l w_r w_o w_4 beta gamma s1 s2 s3 s4
      = ifft ((List.range d.size).map
          (spec_Z K1 K2 K3 d w_l w_r w_o w_4 beta gamma s1 s2 s3 s4)) := by
  simp only [compute_permutation_poly]
  refine congrArg ifft ?_
  rw [product_argument_eq K1 K2 K3 d w_l w_r w_o w_4 beta gamma s1 s2 s3 s4 hl hr ho h4]
  rw [runningProds_erase _ d.size (by simp)]
  apply List.map_congr_left
  intro i hi
  have hi2 : i < d.size := List.mem_range.mp hi
  rw [take_prod_range_map _ _ _ (le_of_lt hi2)]
  simp only [spec_Z]
  exact range_map_prod_eq_grandZ _ _ _ i (fun j hj => rfl)

/-- C2: on wire vectors of the domain size and challenges whose
denominator factors are all nonzero, `compute_permutation_poly` returns
exactly the inverse FFT of the length-`n` sequence `Z` with `Z[0] = 1`
and `Z[j+1] = Z[j] · N_j / D_j`, where `N_j` multiplies
`w_wire[j] + β·k_wire·ω^j + γ` over the four wires with
`(k_L, k_R, k_O, k_F) = (1, K1, K2, K3)` and `D_j` multiplies
`w_wire[j] + β·σ_wire(ω^j) + γ`; the accumulated sequence is truncated
to length `n` before the interpolation. -/
theorem compute_permutation_poly_spec (K1 K2 K3 : F) (ifft : List F → List F)
    (d : Domain F) (w_l w_r w_o w_4 : List F) (beta gamma : F) (s1 s2 s3 s4 : List F)
    (hl : w_l.length = d.size) (hr : w_r.length = d.size)
    (ho : w_o.length = d.size) (h4 : w_4.length = d.size)
    (hden : ∀ j, j < d.size →
      (w_l.getD j 0 + beta * evalPoly s1 (d.gen ^ j) + gamma) ≠ 0
      ∧ (w_r.getD j 0 + beta * evalPoly s2 (d.gen ^ j) + gamma) ≠ 0
      ∧ (w_o.getD j 0 + beta * evalPoly s3 (d.gen ^ j) + gamma) ≠ 0
      ∧ (w_4.getD j 0 + beta * evalPoly s4 (d.gen ^ j) + gamma) ≠ 0) :
    compute_permutation_poly K1 K2 K3 ifft d w_l w_r w_o w_4 beta gamma s1 s2 s3 s4
      = ifft ((List.range d.size).map
          (spec_Z K1 K2 K3 d w_l w_r w_o w_4 beta gamma s1 s2 s3 s4)) :=
  permutation_poly_eq_ifft_specZ K1 K2 K3 ifft d w_l w_r w_o w_4 beta gamma
    s1 s2 s3 s4 hl hr ho h4

/-- C2 witness: a concrete size-1 instance over `Fin 5` with nonzero
denominator factors. -/
theorem compute_permutation_poly_spec_witness :
    ((∀ j, j < (1 : Nat) →
      (((2 : Fin 5) :: []).getD j 0 + 1 * evalPoly [1] ((1 : Fin 5) ^ j) + 1) ≠ 0
      ∧ (((3 : Fin 5) :: []).getD j 0 + 1 * evalPoly [0] ((1 : Fin 5) ^ j) + 1) ≠ 0
      ∧ (((1 : Fin 5) :: []).getD j 0 + 1 * evalPoly [2] ((1 : Fin 5) ^ j) + 1) ≠ 0
      ∧ (((4 : Fin 5) :: []).getD j 0 + 1 * evalPoly [3] ((1 : Fin 5) ^ j) + 1) ≠ 0))
    ∧ compute_permutation_poly (2 : Fin 5) 3 4 id ⟨1, 1⟩ [2] [3] [1] [4] 1 1 [1] [0] [2] [3]
      = id ((List.range 1).map (spec_Z (2 : Fin 5) 3 4 ⟨1, 1⟩ [2] [3] [1] [4] 1 1 [1] [0] [2] [3])) :=
  ⟨by decide,
    compute_permutation_poly_spec 2 3 4 id ⟨1, 1⟩ [2] [3] [1] [4] 1 1 [1] [0] [2] [3]
      (by decide) (by decide) (by decide) (by decide) (by decide)⟩

theorem accProd_accMul (x y : AccComp F) :
    accProd (accMul x y) = accProd x * accProd y := by
  simp only [accProd, accMul]
  ring

theorem map_accProd_accScan : ∀ (l : List (AccComp F)) (prev : AccComp F),
    (accScan prev l).map accProd = accumulate (accProd prev) (l.map accProd) := by
  intro l
  induction l with
  | nil => intro prev; rfl
  | cons x r ih =>
    intro prev
    rw [show accScan prev (x :: r) = accMul prev x :: accScan (accMul prev x) r from rfl,
      List.map_cons, ih (accMul prev x), List.map_cons,
      show accumulate (accProd prev) (accProd x :: List.map accProd r)
        = (accProd prev * accProd x)
            :: accumulate (accProd prev * accProd x) (List.map accProd r) from rfl,
      accProd_accMul]

theorem accProd_onesComp : accProd (onesComp : AccComp F) = 1 := by
  simp [accProd, onesComp]

theorem accumulate_one_one_cons (l : List F) :
    accumulate 1 ((1 : F) :: l) = 1 :: accumulate 1 l := by
  rw [show accumulate (1 : F) (1 :: l)
    = ((1 : F) * 1) :: accumulate ((1 : F) * 1) l from rfl, one_mul]

theorem zipWith_map_same {α β γ δ : Type} (f : β → γ → δ) (g1 : α → β) (g2 : α → γ) :
    ∀ (l : List α),
      List.zipWith f (l.map g1) (l.map g2) = l.map (fun a => f (g1 a) (g2 a)) := by
  intro l
  induction l with
  | nil => rfl
  | cons x xs ih => simp [ih]

theorem getLastD_range_map {α : Type} (g : Nat → α) (n : Nat) (dflt : α) :
    ((List.range (n + 1)).map g).getLastD dflt = g n := by
  rw [List.range_succ, List.map_append]
  simp

theorem getLastD_runningProds (l : List F) :
    ((1 : F) :: accumulate 1 l).getLastD 1 = l.prod := by
  rw [runningProds_eq_map, getLastD_range_map, List.take_length]

theorem range_map_prod_mul_inv (NN DD : Nat → F) :
    ∀ (i : Nat), ((List.range i).map (fun j => NN j * (DD j)⁻¹)).prod
      = ((List.range i).map NN).prod * (((List.range i).map DD).prod)⁻¹ := by
  intro i
  induction i with
  | zero => simp
  | succ j ih =>
    rw [range_map_prod_succ, range_map_prod_succ, range_map_prod_succ, ih, mul_inv]
    ring

set_option maxHeartbeats 1000000 in
/-- Shared helper: the eight-component tuples of the fast implementation
collapse gatewise to the specified `N_j · D_j⁻¹`. -/
theorem fast_components_prod_eq (K1 K2 K3 : F) (d : Domain F)
    (w_l w_r w_o w_4 : List F) (beta gamma : F) (s1 s2 s3 s4 : List F)
    (hl : w_l.length = d.size) (hr : w_r.length = d.size)
    (ho : w_o.length = d.size) (h4 : w_4.length = d.size) :
    (fast_components K1 K2 K3 d w_l w_r w_o w_4 beta gamma s1 s2 s3 s4).map accProd
      = (List.range d.size).map
          (fun j => spec_numerator K1 K2 K3 d w_l w_r w_o w_4 beta gamma j
            * (spec_denominator d w_l w_r w_o w_4 beta gamma s1 s2 s3 s4 j)⁻¹) := by
  simp only [fast_components]
  rw [fft_eq_map, fft_eq_map, fft_eq_map, fft_eq_map]
  rw [show d.elements = (List.range d.size).map (fun j => d.gen ^ j) from rfl]
  simp only [List.map_map]
  rw [zip12With_eq_map _ (0 : F) _ _ _ _ _ _ _ _ _ _ _ _ d.size
    (by simp [hl]) (by simp [hr]) (by simp [ho]) (by simp [h4])
    (by simp) (by simp) (by simp) (by simp) (by simp) (by simp) (by simp) (by simp)]
  rw [List.map_map]
  apply List.map_congr_left
  intro j hj
  have hjn : j < d.size := List.mem_range.mp hj
  simp only [Function.comp]
  rw [getD_map_of_lt w_l _ j _ 0 (by omega), getD_map_of_lt w_r _ j _ 0 (by omega),
    getD_map_of_lt w_o _ j _ 0 (by omega), getD_map_of_lt w_4 _ j _ 0 (by omega),
    getD_range_map _ _ _ _ hjn, getD_range_map _ _ _ _ hjn,
    getD_range_map _ _ _ _ hjn, getD_range_map _ _ _ _ hjn,
    getD_range_map _ _ _ _ hjn, getD_range_map _ _ _ _ hjn,
    getD_range_map _ _ _ _ hjn, getD_range_map _ _ _ _ hjn]
  simp only [accProd, spec_numerator, spec_denominator, Function.comp_apply]
  have hsplit : ∀ (x1 x2 x3 x4 y1 y2 y3 y4 : F),
      1 * x1 * x2 * x3 * x4 * y1⁻¹ * y2⁻¹ * y3⁻¹ * y4⁻¹
        = x1 * x2 * x3 * x4 * (y1 * y2 * y3 * y4)⁻¹ := by
    intro x1 x2 x3 x4 y1 y2 y3 y4
    rw [mul_inv, mul_inv, mul_inv]
    ring
  rw [hsplit]
  congr 1
  · ring
  · congr 1
    ring

/-- Shared helper: `compute_fast_permutation_poly` equals the specified
accumulator sequence. -/
theorem fast_poly_eq_specZ (K1 K2 K3 : F) (d : Domain F)
    (w_l w_r w_o w_4 : List F) (beta gamma : F) (s1 s2 s3 s4 : List F)
    (hl : w_l.length = d.size) (hr : w_r.length = d.size)
    (ho : w_o.length = d.size) (h4 : w_4.length = d.size) :
    compute_fast_permutation_poly K1 K2 K3 d w_l w_r w_o w_4 beta gamma s1 s2 s3 s4
      = (List.range d.size).map
          (spec_Z K1 K2 K3 d w_l w_r w_o w_4 beta gamma s1 s2 s3 s4) := by
  simp only [compute_fast_permutation_poly]
  rw [map_accProd_accScan, List.map_cons, accProd_onesComp, accumulate_one_one_cons]
  rw [fast_components_prod_eq K1 K2 K3 d w_l w_r w_o w_4 beta gamma s1 s2 s3 s4
    hl hr ho h4]
  rw [runningProds_erase _ d.size (by simp)]
  apply List.map_congr_left
  intro i hi
  have hi2 : i < d.size := List.mem_range.mp hi
  rw [take_prod_range_map _ _ _ (le_of_lt hi2)]
  simp only [spec_Z]
  exact range_map_prod_eq_grandZ _ _ _ i (fun j hj => rfl)

/-- Shared helper: the slow implementation's numerator components are
the specified numerators. -/
theorem slow_numerator_components_eq (K1 K2 K3 : F) (d : Domain F)
    (w_l w_r w_o w_4 : List F) (beta gamma : F)
    (hl : w_l.length = d.size) (hr : w_r.length = d.size)
    (ho : w_o.length = d.size) (h4 : w_4.length = d.size) :
    slow_numerator_components K1 K2 K3 d w_l w_r w_o w_4 beta gamma
      = (List.range d.size).map
          (spec_numerator K1 K2 K3 d w_l w_r w_o w_4 beta gamma) := by
  simp only [slow_numerator_components]
  rw [show d.elements = (List.range d.size).map (fun j => d.gen ^ j) from rfl]
  simp only [List.map_map]
  rw [zip8With_eq_map _ (0 : F) _ _ _ _ _ _ _ _ d.size
    (by simp [hl]) (by simp [hr]) (by simp [ho]) (by simp [h4])
    (by simp) (by simp) (by simp) (by simp)]
  apply List.map_congr_left
  intro j hj
  have hjn : j < d.size := List.mem_range.mp hj
  rw [getD_map_of_lt w_l _ j _ 0 (by omega), getD_map_of_lt w_r _ j _ 0 (by omega),
    getD_map_of_lt w_o _ j _ 0 (by omega), getD_map_of_lt w_4 _ j _ 0 (by omega),
    getD_range_map _ _ _ _ hjn, getD_range_map _ _ _ _ hjn,
    getD_range_map _ _ _ _ hjn, getD_range_map _ _ _ _ hjn]
  simp only [spec_numerator, Function.comp]
  ring

/-- Shared helper: the slow implementation's denominator components are
the specified denominators. -/
theorem slow_denominator_components_eq (d : Domain F)
    (w_l w_r w_o w_4 : List F) (beta gamma : F) (s1 s2 s3 s4 : List F)
    (hl : w_l.length = d.size) (hr : w_r.length = d.size)
    (ho : w_o.length = d.size) (h4 : w_4.length = d.size) :
    slow_denominator_components d w_l w_r w_o w_4 beta gamma s1 s2 s3 s4
      = (List.range d.size).map
          (spec_denominator d w_l w_r w_o w_4 beta gamma s1 s2 s3 s4) := by
  simp only [slow_denominator_components]
  rw [fft_eq_map, fft_eq_map, fft_eq_map, fft_eq_map]
  simp only [List.map_map]
  rw [zip8With_eq_map _ (0 : F) _ _ _ _ _ _ _ _ d.size
    (by simp [hl]) (by simp [hr]) (by simp [ho]) (by simp [h4])
    (by simp) (by simp) (by simp) (by simp)]
  apply List.map_congr_left
  intro j hj
  have hjn : j < d.size := List.mem_range.mp hj
  rw [getD_map_of_lt w_l _ j _ 0 (by omega), getD_map_of_lt w_r _ j _ 0 (by omega),
    getD_map_of_lt w_o _ j _ 0 (by omega), getD_map_of_lt w_4 _ j _ 0 (by omega),
    getD_range_map _ _ _ _ hjn, getD_range_map _ _ _ _ hjn,
    getD_range_map _ _ _ _ hjn, getD_range_map _ _ _ _ hjn]
  simp only [spec_denominator, Function.comp]
  ring

/-- Shared helper: when every denominator factor is nonzero and the
total numerator and denominator products agree (the invariant the slow
implementation asserts), the slow implementation succeeds and returns
the specified accumulator sequence. -/
theorem slow_poly_eq_specZ (K1 K2 K3 : F) (d : Domain F)
    (w_l w_r w_o w_4 : List F) (beta gamma : F) (s1 s2 s3 s4 : List F)
    (hl : w_l.length = d.size) (hr : w_r.length = d.size)
    (ho : w_o.length = d.size) (h4 : w_4.length = d.size)
    (hden : ∀ j, j < d.size →
      (w_l.getD j 0 + beta * evalPoly s1 (d.gen ^ j) + gamma) ≠ 0
      ∧ (w_r.getD j 0 + beta * evalPoly s2 (d.gen ^ j) + gamma) ≠ 0
      ∧ (w_o.getD j 0 + beta * evalPoly s3 (d.gen ^ j) + gamma) ≠ 0
      ∧ (w_4.getD j 0 + beta * evalPoly s4 (d.gen ^ j) + gamma) ≠ 0)
    (hbal : ((List.range d.size).map
          (spec_numerator K1 K2 K3 d w_l w_r w_o w_4 beta gamma)).prod
        = ((List.range d.size).map
            (spec_denominator d w_l w_r w_o w_4 beta gamma s1 s2 s3 s4)).prod) :
    compute_slow_permutation_poly K1 K2 K3 d w_l w_r w_o w_4 beta gamma s1 s2 s3 s4
      = some ((List.range d.size).map
            (spec_Z K1 K2 K3 d w_l w_r w_o w_4 beta gamma s1 s2 s3 s4),
          (List.range d.size).map
            (spec_numerator K1 K2 K3 d w_l w_r w_o w_4 beta gamma),
          (List.range d.size).map
            (spec_denominator d w_l w_r w_o w_4 beta gamma s1 s2 s3 s4)) := by
  have hbne : ((List.range d.size).map
      (spec_denominator d w_l w_r w_o w_4 beta gamma s1 s2 s3 s4)).prod ≠ 0 := by
    apply List.prod_ne_zero
    intro hmem
    rw [List.mem_map] at hmem
    obtain ⟨j, hjmem, hj0⟩ := hmem
    have hjn := List.mem_range.mp hjmem
    obtain ⟨n1, n2, n3, n4⟩ := hden j hjn
    simp only [spec_denominator] at hj0
    exact (mul_ne_zero (mul_ne_zero (mul_ne_zero n1 n2) n3) n4) hj0
  simp only [compute_slow_permutation_poly]
  rw [slow_numerator_components_eq K1 K2 K3 d w_l w_r w_o w_4 beta gamma hl hr ho h4,
    slow_denominator_components_eq d w_l w_r w_o w_4 beta gamma s1 s2 s3 s4 hl hr ho h4]
  have hcond : ((1 : F) :: accumulate 1 ((List.range d.size).map
        (spec_numerator K1 K2 K3 d w_l w_r w_o w_4 beta gamma))).length = d.size + 1
      ∧ ((1 : F) :: accumulate 1 ((List.range d.size).map
        (spec_denominator d w_l w_r w_o w_4 beta gamma s1 s2 s3 s4))).length = d.size + 1
      ∧ ((1 : F) :: accumulate 1 ((List.range d.size).map
        (spec_numerator K1 K2 K3 d w_l w_r w_o w_4 beta gamma))).getLastD 1 ≠ 0
      ∧ ((1 : F) :: accumulate 1 ((List.range d.size).map
        (spec_denominator d w_l w_r w_o w_4 beta gamma s1 s2 s3 s4))).getLastD 1 ≠ 0
      ∧ ((1 : F) :: accumulate 1 ((List.range d.size).map
          (spec_numerator K1 K2 K3 d w_l w_r w_o w_4 beta gamma))).getLastD 1
        * (((1 : F) :: accumulate 1 ((List.range d.size).map
          (spec_denominator d w_l w_r w_o w_4 beta gamma s1 s2 s3 s4))).getLastD 1)⁻¹
        = 1 := by
    refine ⟨?_, ?_, ?_, ?_, ?_⟩
    · simp [accumulate_length]
    · simp [accumulate_length]
    · rw [getLastD_runningProds, hbal]
      exact hbne
    · rw [getLastD_runningProds]
      exact hbne
    · rw [getLastD_runningProds, getLastD_runningProds, hbal]
      exact mul_inv_cancel₀ hbne
  have hmain : List.zipWith (fun num den => num * den⁻¹)
      (((1 : F) :: accumulate 1 ((List.range d.size).map
        (spec_numerator K1 K2 K3 d w_l w_r w_o w_4 beta gamma))).eraseIdx d.size)
      (((1 : F) :: accumulate 1 ((List.range d.size).map
        (spec_denominator d w_l w_r w_o w_4 beta gamma s1 s2 s3 s4))).eraseIdx d.size)
      = (List.range d.size).map
          (spec_Z K1 K2 K3 d w_l w_r w_o w_4 beta gamma s1 s2 s3 s4) := by
    rw [runningProds_erase _ d.size (by simp), runningProds_erase _ d.size (by simp)]
    rw [zipWith_map_same]
    apply List.map_congr_left
    intro i hi
    have hi2 : i < d.size := List.mem_range.mp hi
    rw [take_prod_range_map _ _ _ (le_of_lt hi2),
      take_prod_range_map _ _ _ (le_of_lt hi2)]
    rw [← range_map_prod_mul_inv]
    simp only [spec_Z]
    exact range_map_prod_eq_grandZ _ _ _ i (fun j hj => rfl)
  rw [if_pos hcond, hmain]

/-- C10 (counterexample to the claim as stated): a size-1 instance over
`Fin 5` in which every denominator factor is nonzero, yet
`compute_slow_permutation_poly` hits its grand-product assert and
panics (returns `none`), so it returns no `z` vector at all, while
`compute_fast_permutation_poly` returns `[1]`. -/
theorem slow_poly_panics_with_nonzero_denominators :
    (((0 : Fin 5) + 1 * evalPoly [] ((1 : Fin 5) ^ 0) + 1) ≠ 0)
      ∧ compute_slow_permutation_poly (0 : Fin 5) 0 0 ⟨1, 1⟩ [0] [0] [0] [0] 1 1 [] [] [] []
          = none
      ∧ compute_fast_permutation_poly (0 : Fin 5) 0 0 ⟨1, 1⟩ [0] [0] [0] [0] 1 1 [] [] [] []
          = [1] := by
  decide

/-- C10 (amended): on wire vectors of the domain size, challenges with
all denominator factors nonzero, and inputs satisfying the grand-product
invariant `Π N_j = Π D_j` (which the slow implementation asserts), the
three implementations agree: `compute_permutation_poly` is the inverse
FFT of `compute_fast_permutation_poly`'s output vector, and
`compute_slow_permutation_poly` succeeds with that very `z` vector. -/
theorem grand_product_implementations_agree (K1 K2 K3 : F) (ifft : List F → List F)
    (d : Domain F) (w_l w_r w_o w_4 : List F) (beta gamma : F) (s1 s2 s3 s4 : List F)
    (hl : w_l.length = d.size) (hr : w_r.length = d.size)
    (ho : w_o.length = d.size) (h4 : w_4.length = d.size)
    (hden : ∀ j, j < d.size →
      (w_l.getD j 0 + beta * evalPoly s1 (d.gen ^ j) + gamma) ≠ 0
      ∧ (w_r.getD j 0 + beta * evalPoly s2 (d.gen ^ j) + gamma) ≠ 0
      ∧ (w_o.getD j 0 + beta * evalPoly s3 (d.gen ^ j) + gamma) ≠ 0
      ∧ (w_4.getD j 0 + beta * evalPoly s4 (d.gen ^ j) + gamma) ≠ 0)
    (hbal : ((List.range d.size).map
          (spec_numerator K1 K2 K3 d w_l w_r w_o w_4 beta gamma)).prod
        = ((List.range d.size).map
            (spec_denominator d w_l w_r w_o w_4 beta gamma s1 s2 s3 s4)).prod) :
    compute_permutation_poly K1 K2 K3 ifft d w_l w_r w_o w_4 beta gamma s1 s2 s3 s4
        = ifft (compute_fast_permutation_poly K1 K2 K3 d w_l w_r w_o w_4 beta gamma
            s1 s2 s3 s4)
      ∧ ∃ ncomp dcomp,
          compute_slow_permutation_poly K1 K2 K3 d w_l w_r w_o w_4 beta gamma s1 s2 s3 s4
            = some (compute_fast_permutation_poly K1 K2 K3 d w_l w_r w_o w_4 beta gamma
                s1 s2 s3 s4, ncomp, dcomp) := by
  have hfast := fast_poly_eq_specZ K1 K2 K3 d w_l w_r w_o w_4 beta gamma s1 s2 s3 s4
    hl hr ho h4
  constructor
  · rw [permutation_poly_eq_ifft_specZ K1 K2 K3 ifft d w_l w_r w_o w_4 beta gamma
      s1 s2 s3 s4 hl hr ho h4, hfast]
  · refine ⟨(List.range d.size).map
        (spec_numerator K1 K2 K3 d w_l w_r w_o w_4 beta gamma),
      (List.range d.size).map
        (spec_denominator d w_l w_r w_o w_4 beta gamma s1 s2 s3 s4), ?_⟩
    rw [slow_poly_eq_specZ K1 K2 K3 d w_l w_r w_o w_4 beta gamma s1 s2 s3 s4
      hl hr ho h4 hden hbal, hfast]

/-- C10 witness: a concrete size-2 instance over `Fin 5` with `β = 0`,
which satisfies the nonzero-denominator and balanced-product
hypotheses. -/
theorem grand_product_implementations_agree_witness :
    ((∀ j, j < (⟨2, 4⟩ : Domain (Fin 5)).size →
      (((1 : Fin 5) :: [2]).getD j 0 + 0 * evalPoly [1] ((4 : Fin 5) ^ j) + 1) ≠ 0
      ∧ (((3 : Fin 5) :: [0]).getD j 0 + 0 * evalPoly [2] ((4 : Fin 5) ^ j) + 1) ≠ 0
      ∧ (((2 : Fin 5) :: [2]).getD j 0 + 0 * evalPoly [3] ((4 : Fin 5) ^ j) + 1) ≠ 0
      ∧ (((0 : Fin 5) :: [1]).getD j 0 + 0 * evalPoly [4] ((4 : Fin 5) ^ j) + 1) ≠ 0))
    ∧ (compute_permutation_poly (2 : Fin 5) 3 4 id ⟨2, 4⟩ [1, 2] [3, 0] [2, 2] [0, 1]
          0 1 [1] [2] [3] [4]
        = id (compute_fast_permutation_poly (2 : Fin 5) 3 4 ⟨2, 4⟩ [1, 2] [3, 0] [2, 2]
            [0, 1] 0 1 [1] [2] [3] [4])
      ∧ ∃ ncomp dcomp,
          compute_slow_permutation_poly (2 : Fin 5) 3 4 ⟨2, 4⟩ [1, 2] [3, 0] [2, 2] [0, 1]
              0 1 [1] [2] [3] [4]
            = some (compute_fast_permutation_poly (2 : Fin 5) 3 4 ⟨2, 4⟩ [1, 2] [3, 0]
                [2, 2] [0, 1] 0 1 [1] [2] [3] [4], ncomp, dcomp)) :=
  ⟨by decide,
    grand_product_implementations_agree 2 3 4 id ⟨2, 4⟩ [1, 2] [3, 0] [2, 2] [0, 1]
      0 1 [1] [2] [3] [4] (by decide) (by decide) (by decide) (by decide) (by decide)
      (by decide)⟩

/-! ### Theorems for C4 and C9 -/

/-- C4: for every proof-evaluations bundle, public-input vector and
challenges `α`, `β`, `γ`, `ζ`, the verifier's
`compute_quotient_evaluation`, applied to `z_H(ζ) = ζ^n - 1` and
`L₁(ζ) = z_H(ζ) / (n·(ζ-1))` as computed by `verify`, returns exactly
`[r(ζ) + PI(ζ) - (a+βσ_L+γ)(b+βσ_R+γ)(c+βσ_O+γ)(d+γ)·z(ζω)·α
- L₁(ζ)·α²] / z_H(ζ)`, all terms taken from the evaluations bundle. -/
theorem compute_quotient_evaluation_formula (d : Domain F) (pub_inputs : List F)
    (evals : ProofEvaluations F) (alpha beta gamma zeta : F) :
    compute_quotient_evaluation d pub_inputs evals alpha beta gamma zeta
      (evaluate_vanishing_polynomial d zeta)
      (compute_first_lagrange_evaluation d (evaluate_vanishing_polynomial d zeta) zeta)
      evals.permutation_eval
    = (evals.linearisation_polynomial_eval
        + compute_barycentric_eval pub_inputs zeta d
        - (evals.a_eval + beta * evals.left_sigma_eval + gamma)
          * (evals.b_eval + beta * evals.right_sigma_eval + gamma)
          * (evals.c_eval + beta * evals.out_sigma_eval + gamma)
          * (evals.d_eval + gamma) * evals.permutation_eval * alpha
        - (zeta ^ d.size - 1) / ((d.size : F) * (zeta - 1)) * alpha ^ 2)
      / (zeta ^ d.size - 1) := by
  simp only [compute_quotient_evaluation, compute_first_lagrange_evaluation,
    evaluate_vanishing_polynomial, div_eq_mul_inv]
  ring

/-- Correctness of the fuelled next-power-of-two computation. -/
theorem domainSizeAux_spec (n : Nat) :
    ∀ (f j : Nat), n ≤ 2 ^ j * 2 ^ f →
      n ≤ domainSizeAux n f (2 ^ j) ∧ ∃ k, domainSizeAux n f (2 ^ j) = 2 ^ k := by
  intro f
  induction f with
  | zero =>
    intro j h
    simp only [pow_zero, mul_one] at h
    exact ⟨h, j, rfl⟩
  | succ f ih =>
    intro j h
    have step : domainSizeAux n (f + 1) (2 ^ j)
        = if n ≤ 2 ^ j then 2 ^ j else domainSizeAux n f (2 * 2 ^ j) := rfl
    by_cases hle : n ≤ 2 ^ j
    · rw [step, if_pos hle]
      exact ⟨hle, j, rfl⟩
    · have h2 : n ≤ 2 ^ (j + 1) * 2 ^ f := by
        have e : (2 : Nat) ^ j * 2 ^ (f + 1) = 2 ^ (j + 1) * 2 ^ f := by ring
        rw [← e]
        exact h
      have h3 := ih (j + 1) h2
      have e2 : (2 : Nat) * 2 ^ j = 2 ^ (j + 1) := by ring
      rw [step, if_neg hle, e2]
      exact h3

/-- The domain size is a power of two at least the requested size. -/
theorem domainSize_ge_pow (n : Nat) :
    n ≤ domainSize n ∧ ∃ k, domainSize n = 2 ^ k := by
  have h : n ≤ 2 ^ 0 * 2 ^ (n + 1) := by
    have := Nat.lt_two_pow n
    have h2 : (2 : Nat) ^ n ≤ 2 ^ (n + 1) := Nat.pow_le_pow_right (by omega) (by omega)
    simpa using le_trans (le_of_lt this) h2
  simpa [domainSize] using domainSizeAux_spec n (n + 1) 0 h

/-- C7: after `preprocess_shared` succeeds on a composer whose fifteen
selector and wire vectors all have length `n`, the new gate count equals
the evaluation-domain size, a power of two at least the pre-padding
circuit size; every vector has the new length `n`; and every padded row
has zero selectors and all four wires equal to the zero variable. -/
theorem preprocess_shared_pads (c : Composer F)
    (h : c.q_m.length = c.n ∧ c.q_l.length = c.n ∧ c.q_r.length = c.n
      ∧ c.q_o.length = c.n ∧ c.q_c.length = c.n ∧ c.q_4.length = c.n
      ∧ c.q_arith.length = c.n ∧ c.q_range.length = c.n ∧ c.q_logic.length = c.n
      ∧ c.q_fixed_group_add.length = c.n ∧ c.q_variable_group_add.length = c.n
      ∧ c.w_l.length = c.n ∧ c.w_r.length = c.n ∧ c.w_o.length = c.n
      ∧ c.w_4.length = c.n) :
    ∃ c2, c.preprocess_shared = .ok c2
      ∧ c2.n = domainSize c.n ∧ (∃ k, c2.n = 2 ^ k) ∧ c.n ≤ c2.n
      ∧ (c2.q_m.length = c2.n ∧ c2.q_l.length = c2.n ∧ c2.q_r.length = c2.n
        ∧ c2.q_o.length = c2.n ∧ c2.q_c.length = c2.n ∧ c2.q_4.length = c2.n
        ∧ c2.q_arith.length = c2.n ∧ c2.q_range.length = c2.n
        ∧ c2.q_logic.length = c2.n ∧ c2.q_fixed_group_add.length = c2.n
        ∧ c2.q_variable_group_add.length = c2.n ∧ c2.w_l.length = c2.n
        ∧ c2.w_r.length = c2.n ∧ c2.w_o.length = c2.n ∧ c2.w_4.length = c2.n)
      ∧ (c2.q_m.drop c.n = List.replicate (c2.n - c.n) 0
        ∧ c2.q_l.drop c.n = List.replicate (c2.n - c.n) 0
        ∧ c2.q_r.drop c.n = List.replicate (c2.n - c.n) 0
        ∧ c2.q_o.drop c.n = List.replicate (c2.n - c.n) 0
        ∧ c2.q_c.drop c.n = List.replicate (c2.n - c.n) 0
        ∧ c2.q_4.drop c.n = List.replicate (c2.n - c.n) 0
        ∧ c2.q_arith.drop c.n = List.replicate (c2.n - c.n) 0
        ∧ c2.q_range.drop c.n = List.replicate (c2.n - c.n) 0
        ∧ c2.q_logic.drop c.n = List.replicate (c2.n - c.n) 0
        ∧ c2.q_fixed_group_add.drop c.n = List.replicate (c2.n - c.n) 0
        ∧ c2.q_variable_group_add.drop c.n = List.replicate (c2.n - c.n) 0)
      ∧ (c2.w_l.drop c.n = List.replicate (c2.n - c.n) c.zero_var
        ∧ c2.w_r.drop c.n = List.replicate (c2.n - c.n) c.zero_var
        ∧ c2.w_o.drop c.n = List.replicate (c2.n - c.n) c.zero_var
        ∧ c2.w_4.drop c.n = List.replicate (c2.n - c.n) c.zero_var) := by
  obtain ⟨h1, h2, h3, h4, h5, h6, h7, h8, h9, h10, h11, h12, h13, h14, h15⟩ := h
  have hmatch : c.lensMatch := by
    constructor <;> simp_all
  have hsz := domainSize_ge_pow c.n
  refine ⟨c.pad (domainSize c.n - c.n), ?_, ?_⟩
  · simp only [Composer.preprocess_shared, Composer.check_poly_same_len]
    rw [if_pos hmatch]
  · have hdrop : ∀ (α : Type) (l : List α) (x : α) (d : Nat), l.length = c.n →
        ((l ++ List.replicate d x).drop c.n = List.replicate d x) := by
      intro α l x d hl
      rw [← hl, List.drop_left]
    have hn : c.n + (domainSize c.n - c.n) = domainSize c.n :=
      Nat.add_sub_cancel' hsz.1
    have hlen : ∀ (α : Type) (l : List α) (x : α), l.length = c.n →
        (l ++ List.replicate (domainSize c.n - c.n) x).length = domainSize c.n := by
      intro α l x hl
      simp only [List.length_append, List.length_replicate, hl]
      exact hn
    refine ⟨by simp [Composer.pad, hn], ?_, ?_, ?_, ?_, ?_⟩
    · simpa [Composer.pad, hn] using hsz.2
    · simpa [Composer.pad, hn] using hsz.1
    · simp only [Composer.pad, hn]
      exact ⟨hlen _ _ _ h1, hlen _ _ _ h2, hlen _ _ _ h3, hlen _ _ _ h4,
        hlen _ _ _ h5, hlen _ _ _ h6, hlen _ _ _ h7, hlen _ _ _ h8,
        hlen _ _ _ h9, hlen _ _ _ h10, hlen _ _ _ h11, hlen _ _ _ h12,
        hlen _ _ _ h13, hlen _ _ _ h14, hlen _ _ _ h15⟩
    · simp only [Composer.pad, hn]
      exact ⟨hdrop _ _ _ _ h1, hdrop _ _ _ _ h2, hdrop _ _ _ _ h3,
        hdrop _ _ _ _ h4, hdrop _ _ _ _ h5, hdrop _ _ _ _ h6,
        hdrop _ _ _ _ h7, hdrop _ _ _ _ h8, hdrop _ _ _ _ h9,
        hdrop _ _ _ _ h10, hdrop _ _ _ _ h11⟩
    · simp only [Composer.pad, hn]
      exact ⟨hdrop _ _ _ _ h12, hdrop _ _ _ _ h13, hdrop _ _ _ _ h14,
        hdrop _ _ _ _ h15⟩

/-- C7 witness: a concrete composer of size 3 over `Fin 5` satisfies the
length hypothesis and is padded to the power-of-two size 4. -/
theorem preprocess_shared_pads_witness :
    let c : Composer (Fin 5) := composerExample
    ∃ c2, c.preprocess_shared = .ok c2
      ∧ c2.n = domainSize c.n ∧ (∃ k, c2.n = 2 ^ k) ∧ c.n ≤ c2.n
      ∧ (c2.q_m.length = c2.n ∧ c2.q_l.length = c2.n ∧ c2.q_r.length = c2.n
        ∧ c2.q_o.length = c2.n ∧ c2.q_c.length = c2.n ∧ c2.q_4.length = c2.n
        ∧ c2.q_arith.length = c2.n ∧ c2.q_range.length = c2.n
        ∧ c2.q_logic.length = c2.n ∧ c2.q_fixed_group_add.length = c2.n
        ∧ c2.q_variable_group_add.length = c2.n ∧ c2.w_l.length = c2.n
        ∧ c2.w_r.length = c2.n ∧ c2.w_o.length = c2.n ∧ c2.w_4.length = c2.n)
      ∧ (c2.q_m.drop c.n = List.replicate (c2.n - c.n) 0
        ∧ c2.q_l.drop c.n = List.replicate (c2.n - c.n) 0
        ∧ c2.q_r.drop c.n = List.replicate (c2.n - c.n) 0
        ∧ c2.q_o.drop c.n = List.replicate (c2.n - c.n) 0
        ∧ c2.q_c.drop c.n = List.replicate (c2.n - c.n) 0
        ∧ c2.q_4.drop c.n = List.replicate (c2.n - c.n) 0
        ∧ c2.q_arith.drop c.n = List.replicate (c2.n - c.n) 0
        ∧ c2.q_range.drop c.n = List.replicate (c2.n - c.n) 0
        ∧ c2.q_logic.drop c.n = List.replicate (c2.n - c.n) 0
        ∧ c2.q_fixed_group_add.drop c.n = List.replicate (c2.n - c.n) 0
        ∧ c2.q_variable_group_add.drop c.n = List.replicate (c2.n - c.n) 0)
      ∧ (c2.w_l.drop c.n = List.replicate (c2.n - c.n) c.zero_var
        ∧ c2.w_r.drop c.n = List.replicate (c2.n - c.n) c.zero_var
        ∧ c2.w_o.drop c.n = List.replicate (c2.n - c.n) c.zero_var
        ∧ c2.w_4.drop c.n = List.replicate (c2.n - c.n) c.zero_var) :=
  preprocess_shared_pads composerExample (by decide)

/-- C8: preprocessing returns `MismatchedPolyLen` exactly when some
selector or wire vector has a length different from the length of
`q_m`; the check runs before the padding step, so the value produced in
the success case is the padded composer while the error case produces no
composer state at all. -/
theorem preprocess_shared_mismatched_iff (c : Composer F) :
    (c.preprocess_shared = .error Error.MismatchedPolyLen ↔ ¬ c.lensMatch)
      ∧ c.preprocess_shared
        = (if c.lensMatch then Except.ok (c.pad (domainSize c.n - c.n))
           else Except.error Error.MismatchedPolyLen) := by
  have hstep : c.preprocess_shared
      = (if c.lensMatch then Except.ok (c.pad (domainSize c.n - c.n))
         else Except.error Error.MismatchedPolyLen) := by
    simp only [Composer.preprocess_shared, Composer.check_poly_same_len]
    by_cases hm : c.lensMatch
    · rw [if_pos hm, if_pos hm]
    · rw [if_neg hm, if_neg hm]
  refine ⟨?_, hstep⟩
  rw [hstep]
  by_cases hm : c.lensMatch
  · rw [if_pos hm]
    simp [hm]
  · rw [if_neg hm]
    simp [hm]

/-- C9 (counterexample to the claim as stated): for a 255-bit field such
as the scalar field of BLS12-381, `challenge_scalar` draws
`255 / 8 = 31` bytes, not `⌈255 / 8⌉ = 32` bytes. -/
theorem challenge_scalar_draws_floor_not_ceil :
    ((challenge_scalar (fun _ => (0 : Fin 5)) 255 ⟨fun _ => 0, 0⟩).2.drawn = 31)
      ∧ (255 + 7) / 8 = 32 ∧ (31 : Nat) ≠ 32 := by
  refine ⟨rfl, rfl, by decide⟩

/-- C9 (amended): for every transcript state and field bit-size,
`challenge_scalar` draws exactly `⌊bits(F) / 8⌋` bytes from the
transcript (floor division, as in the source `size_in_bits() / 8`) and
reduces exactly those bytes into a field element. -/
theorem challenge_scalar_bytes_drawn (from_random_bytes : List (Fin 256) → F)
    (field_bits : Nat) (t : TranscriptState) :
    (challenge_scalar from_random_bytes field_bits t).2.drawn
        = t.drawn + field_bits / 8
      ∧ (challenge_scalar from_random_bytes field_bits t).1
        = from_random_bytes
            ((List.range (field_bits / 8)).map (fun j => t.stream (t.drawn + j))) := by
  exact ⟨rfl, rfl⟩

/-! ### Sigma permutations: rotation by one (C3) -/

theorem getD_set_self {α : Type} (l : List α) (i : Nat) (v d : α) (h : i < l.length) :
    (l.set i v).getD i d = v := by
  have h1 : i < (l.set i v).length := by simpa using h
  rw [getD_of_lt _ _ _ h1]
  simp

theorem getD_set_ne {α : Type} (l : List α) (i j : Nat) (v d : α) (h : i ≠ j) :
    (l.set i v).getD j d = l.getD j d := by
  rw [List.getD_eq_getElem?_getD, List.getD_eq_getElem?_getD, List.getElem?_set_ne h]

theorem sigLens_sigmaSet {s : Sigmas} {n : Nat} (w v : WireData) (h : SigLens s n) :
    SigLens (sigmaSet s w v) n := by
  cases w <;> simpa [sigmaSet, SigLens] using h

theorem sigLens_identitySigmas (n : Nat) : SigLens (identitySigmas n) n := by
  refine ⟨?_, ?_, ?_, ?_⟩ <;> simp [identitySigmas]

theorem sigmaLookup_sigmaSet_self {s : Sigmas} {n : Nat} (hs : SigLens s n)
    (w v : WireData) (hw : WireData.gateIndex w < n) :
    sigmaLookup (sigmaSet s w v) w = v := by
  cases w with
  | Left i =>
    show (s.s1.set i v).getD i (WireData.Left i) = v
    exact getD_set_self _ _ _ _ (by simp only [hs.1]; exact hw)
  | Right i =>
    show (s.s2.set i v).getD i (WireData.Right i) = v
    exact getD_set_self _ _ _ _ (by simp only [hs.2.1]; exact hw)
  | Output i =>
    show (s.s3.set i v).getD i (WireData.Output i) = v
    exact getD_set_self _ _ _ _ (by simp only [hs.2.2.1]; exact hw)
  | Fourth i =>
    show (s.s4.set i v).getD i (WireData.Fourth i) = v
    exact getD_set_self _ _ _ _ (by simp only [hs.2.2.2]; exact hw)

theorem sigmaLookup_sigmaSet_ne (s : Sigmas) (w v w' : WireData) (h : w ≠ w') :
    sigmaLookup (sigmaSet s w v) w' = sigmaLookup s w' := by
  cases w <;> cases w' <;>
    first
      | rfl
      | exact getD_set_ne _ _ _ _ _ (fun hij => h (by rw [hij]))

theorem sigmaLookup_identitySigmas (n : Nat) (w : WireData)
    (h : WireData.gateIndex w < n) :
    sigmaLookup (identitySigmas n) w = w := by
  cases w with
  | Left i => exact getD_range_map _ _ _ _ h
  | Right i => exact getD_range_map _ _ _ _ h
  | Output i => exact getD_range_map _ _ _ _ h
  | Fourth i => exact getD_range_map _ _ _ _ h

/-- Unfolding `applyWireRotation` on an empty slot list. -/
theorem applyWireRotation_nil (full : List WireData) (i : Nat) (s : Sigmas) :
    applyWireRotation full i [] s = s := rfl

/-- Unfolding `applyWireRotation` on a `cons` cell: the head slot is
written, then the tail is processed at the next index. -/
theorem applyWireRotation_cons (full : List WireData) (i : Nat) (w : WireData)
    (rest : List WireData) (s : Sigmas) :
    applyWireRotation full i (w :: rest) s
      = applyWireRotation full (i + 1) rest
          (sigmaSet s w (full.getD (if i = full.length - 1 then 0 else i + 1) w)) := rfl

theorem sigLens_applyWireRotation (full : List WireData) {n : Nat} :
    ∀ (rest : List WireData) (i : Nat) (s : Sigmas), SigLens s n →
      SigLens (applyWireRotation full i rest s) n := by
  intro rest
  induction rest with
  | nil => intro i s hs; exact hs
  | cons w rest ih =>
    intro i s hs
    rw [applyWireRotation_cons]
    exact ih _ _ (sigLens_sigmaSet _ _ hs)

/-- A slot not occurring in the processed list is left unchanged by
`applyWireRotation`. -/
theorem applyWireRotation_frame (full : List WireData) :
    ∀ (rest : List WireData) (i : Nat) (s : Sigmas) (w : WireData), w ∉ rest →
      sigmaLookup (applyWireRotation full i rest s) w = sigmaLookup s w := by
  intro rest
  induction rest with
  | nil => intro i s w _; rfl
  | cons x rest ih =>
    intro i s w hw
    rw [applyWireRotation_cons]
    rw [ih _ _ _ (fun hmem => hw (List.mem_cons_of_mem _ hmem))]
    exact sigmaLookup_sigmaSet_ne _ _ _ _
      (fun hx => hw (by rw [← hx]; exact List.mem_cons_self _ _))

/-- The write lemma for `applyWireRotation`: processing the tail
`rest` of `full` starting at position `i`, the slot at position
`i + j` ends up mapped to the slot at position `(i + j + 1)` modulo
the length of `full`. -/
theorem applyWireRotation_writes (full : List WireData) {n : Nat} (d : WireData) :
    ∀ (rest : List WireData) (i : Nat) (s : Sigmas),
      rest.Nodup →
      (∀ w ∈ rest, WireData.gateIndex w < n) →
      SigLens s n →
      i + rest.length = full.length →
      (∀ j, j < rest.length → rest.getD j d = full.getD (i + j) d) →
      ∀ j, j < rest.length →
        sigmaLookup (applyWireRotation full i rest s) (rest.getD j d)
          = full.getD ((i + j + 1) % full.length) d := by
  intro rest
  induction rest with
  | nil => intro i s _ _ _ _ _ j hj; exact absurd hj (by simp)
  | cons w rest ih =>
    intro i s hnd hgi hs hlen hpt j hj
    rw [applyWireRotation_cons]
    have hlen' : i + (rest.length + 1) = full.length := by
      simpa using hlen
    cases j with
    | zero =>
      simp only [List.getD_cons_zero]
      have hwne : w ∉ rest := (List.nodup_cons.mp hnd).1
      rw [applyWireRotation_frame full rest (i + 1) _ w hwne]
      rw [sigmaLookup_sigmaSet_self hs w _ (hgi w (List.mem_cons_self _ _))]
      have hlt : i < full.length := by omega
      by_cases hil : i = full.length - 1
      · rw [if_pos hil]
        have h1 : (i + 0 + 1) % full.length = 0 := by
          rw [show i + 0 + 1 = full.length from by omega]
          exact Nat.mod_self _
        rw [h1, getD_of_lt _ _ _ (by omega : 0 < full.length),
          getD_of_lt _ _ _ (by omega : 0 < full.length)]
      · rw [if_neg hil]
        have h2 : i + 1 < full.length := by omega
        have h1 : (i + 0 + 1) % full.length = i + 1 := by
          rw [show i + 0 + 1 = i + 1 from by omega]
          exact Nat.mod_eq_of_lt h2
        rw [h1, getD_of_lt _ _ _ h2, getD_of_lt _ _ _ h2]
    | succ k =>
      simp only [List.getD_cons_succ]
      have hk : k < rest.length := by
        simp only [List.length_cons] at hj
        omega
      have hpt' : ∀ j, j < rest.length → rest.getD j d = full.getD (i + 1 + j) d := by
        intro j hjr
        have h := hpt (j + 1) (by simp only [List.length_cons]; omega)
        simp only [List.getD_cons_succ] at h
        rw [h, show i + (j + 1) = i + 1 + j from by omega]
      have hih := ih (i + 1)
        (sigmaSet s w (full.getD (if i = full.length - 1 then 0 else i + 1) w))
        (List.nodup_cons.mp hnd).2
        (fun x hx => hgi x (List.mem_cons_of_mem _ hx))
        (sigLens_sigmaSet _ _ hs)
        (by omega)
        hpt' k hk
      rw [hih]
      have heq : (i + 1 + k + 1) % full.length = (i + (k + 1) + 1) % full.length := by
        rw [show i + 1 + k + 1 = i + (k + 1) + 1 from by omega]
      rw [heq]

/-- A slot occurring in none of the variable-map entries is left
unchanged by the whole fold of `compute_sigma_permutations`. -/
theorem sigma_foldl_frame :
    ∀ (vm : List (List WireData)) (s : Sigmas) (w : WireData),
      (∀ e ∈ vm, w ∉ e) →
      sigmaLookup (vm.foldl (fun acc e => applyWireRotation e 0 e acc) s) w
        = sigmaLookup s w := by
  intro vm
  induction vm with
  | nil => intro s w _; rfl
  | cons e vm ih =>
    intro s w hw
    rw [List.foldl_cons]
    rw [ih _ _ (fun e' he' => hw e' (List.mem_cons_of_mem _ he'))]
    exact applyWireRotation_frame e e 0 s w (hw e (List.mem_cons_self _ _))

/-- The rotation property of `compute_sigma_permutations`: slot `j` of a
variable's slot list is mapped to slot `(j + 1) mod k`. -/
theorem sigma_rotates (n : Nat) (variable_map : List (List WireData))
    (hnd : variable_map.flatten.Nodup)
    (hidx : ∀ wd ∈ variable_map.flatten, WireData.gateIndex wd < n)
    (e : List WireData) (he : e ∈ variable_map) (d : WireData)
    (j : Nat) (hj : j < e.length) :
    sigmaLookup (compute_sigma_permutations n variable_map) (e.getD j d)
      = e.getD ((j + 1) % e.length) d := by
  unfold compute_sigma_permutations
  suffices h : ∀ (vm : List (List WireData)) (s : Sigmas),
      vm.flatten.Nodup →
      (∀ wd ∈ vm.flatten, WireData.gateIndex wd < n) →
      SigLens s n → e ∈ vm →
      sigmaLookup (vm.foldl (fun acc x => applyWireRotation x 0 x acc) s) (e.getD j d)
        = e.getD ((j + 1) % e.length) d by
    exact h variable_map _ hnd hidx (sigLens_identitySigmas n) he
  intro vm
  induction vm with
  | nil => intro s _ _ _ he'; exact absurd he' (by simp)
  | cons e' vm ih =>
    intro s hnd' hidx' hs he'
    rw [List.foldl_cons]
    have hnd2 : (e' ++ vm.flatten).Nodup := by
      simpa [List.flatten_cons] using hnd'
    rcases List.mem_cons.mp he' with heq | hmem
    · subst heq
      have hce : e.Nodup := (List.nodup_append.mp hnd2).1
      have hdisj0 : e.Disjoint vm.flatten := (List.nodup_append.mp hnd2).2.2
      have hmem_e : e.getD j d ∈ e := by
        rw [getD_of_lt _ _ _ hj]
        exact List.get_mem _ _ hj
      have hdisj : ∀ e'' ∈ vm, e.getD j d ∉ e'' := by
        intro e'' he'' hmem2
        exact hdisj0 hmem_e (List.mem_flatten.mpr ⟨e'', he'', hmem2⟩)
      rw [sigma_foldl_frame vm _ _ hdisj]
      have hwr := applyWireRotation_writes e d e 0 s hce
        (fun x hx => hidx' x (by
          simp only [List.flatten_cons, List.mem_append]
          exact Or.inl hx))
        hs (by simp)
        (fun j' _ => by rw [Nat.zero_add]) j hj
      rw [hwr, Nat.zero_add]
    · refine ih _ ((List.nodup_append.mp hnd2).2.1)
        (fun x hx => hidx' x (by
          simp only [List.flatten_cons, List.mem_append]
          exact Or.inr hx))
        (sigLens_applyWireRotation e' e' 0 s hs) hmem

/-- A slot with a valid gate index that is touched by no variable maps
to itself under `compute_sigma_permutations`. -/
theorem sigma_untouched (n : Nat) (variable_map : List (List WireData))
    (wd : WireData) (hgi : WireData.gateIndex wd < n)
    (hmem : wd ∉ variable_map.flatten) :
    sigmaLookup (compute_sigma_permutations n variable_map) wd = wd := by
  unfold compute_sigma_permutations
  have hfr : ∀ e ∈ variable_map, wd ∉ e :=
    fun e he hw => hmem (List.mem_flatten.mpr ⟨e, he, hw⟩)
  rw [sigma_foldl_frame variable_map _ wd hfr]
  exact sigmaLookup_identitySigmas n wd hgi

/-- Iterating the sigma permutation `m` times advances a slot by `m`
positions modulo the slot-list length. -/
theorem sigma_iterate_aux (n : Nat) (variable_map : List (List WireData))
    (hnd : variable_map.flatten.Nodup)
    (hidx : ∀ wd ∈ variable_map.flatten, WireData.gateIndex wd < n)
    (e : List WireData) (he : e ∈ variable_map) (d : WireData) :
    ∀ (m j : Nat), j < e.length →
      (sigmaLookup (compute_sigma_permutations n variable_map))^[m] (e.getD j d)
        = e.getD ((j + m) % e.length) d := by
  intro m
  induction m with
  | zero =>
    intro j hj
    simp [Nat.mod_eq_of_lt hj]
  | succ m ih =>
    intro j hj
    rw [Function.iterate_succ_apply]
    rw [sigma_rotates n variable_map hnd hidx e he d j hj]
    have hlen : 0 < e.length := by omega
    have hlt : (j + 1) % e.length < e.length := Nat.mod_lt _ hlen
    rw [ih _ hlt]
    have harith : ((j + 1) % e.length + m) % e.length
        = (j + (m + 1)) % e.length := by
      rw [Nat.mod_add_mod, show j + 1 + m = j + (m + 1) from by omega]
    rw [harith]

/-- C3: for every variable map whose slots are pairwise distinct and all
within the gate count, `compute_sigma_permutations` rotates each
variable's slot list by one (slot `j` maps to slot `(j + 1) mod k`),
every identity slot touched by no variable maps to itself, and
consequently applying the sigma permutation `k` times is the identity
on every slot of the variable. -/
theorem compute_sigma_permutations_rotation (n : Nat)
    (variable_map : List (List WireData))
    (hnd : variable_map.flatten.Nodup)
    (hidx : ∀ wd ∈ variable_map.flatten, WireData.gateIndex wd < n)
    (e : List WireData) (he : e ∈ variable_map) (d : WireData) :
    (∀ j, j < e.length →
        sigmaLookup (compute_sigma_permutations n variable_map) (e.getD j d)
          = e.getD ((j + 1) % e.length) d)
      ∧ (∀ wd : WireData, WireData.gateIndex wd < n → wd ∉ variable_map.flatten →
          sigmaLookup (compute_sigma_permutations n variable_map) wd = wd)
      ∧ (∀ j, j < e.length →
          (sigmaLookup (compute_sigma_permutations n variable_map))^[e.length]
              (e.getD j d)
            = e.getD j d) := by
  refine ⟨fun j hj => sigma_rotates n variable_map hnd hidx e he d j hj,
    fun wd hgi hw => sigma_untouched n variable_map wd hgi hw,
    fun j hj => ?_⟩
  rw [sigma_iterate_aux n variable_map hnd hidx e he d e.length j hj]
  rw [Nat.add_mod_right, Nat.mod_eq_of_lt hj]

/-- Witness for C3 at the concrete four-gate variable map: the
hypotheses hold by computation and slot `Left 0` of the five-slot
variable is mapped to its successor slot `Right 0`. -/
theorem compute_sigma_permutations_rotation_witness :
    vmapExample.flatten.Nodup
      ∧ (∀ wd ∈ vmapExample.flatten, WireData.gateIndex wd < 4)
      ∧ ([WireData.Left 0, .Right 0, .Left 1, .Left 2, .Left 3] ∈ vmapExample)
      ∧ sigmaLookup (compute_sigma_permutations 4 vmapExample)
          ([WireData.Left 0, .Right 0, .Left 1, .Left 2, .Left 3].getD 0 (.Left 0))
        = [WireData.Left 0, .Right 0, .Left 1, .Left 2, .Left 3].getD
            ((0 + 1) % [WireData.Left 0, .Right 0, .Left 1, .Left 2, .Left 3].length)
            (.Left 0) := by
  refine ⟨by decide, by decide, by decide, ?_⟩
  exact (compute_sigma_permutations_rotation 4 vmapExample (by decide) (by decide)
    [WireData.Left 0, .Right 0, .Left 1, .Left 2, .Left 3] (by decide)
    (.Left 0)).1 0 (by decide)

/-! ### Range gate (C5, C6) -/

theorem SameCore_refl (c : Composer F) : SameCore c c := by
  refine ⟨rfl, rfl, rfl, rfl, rfl, rfl, rfl, rfl, rfl, rfl, rfl, rfl, rfl⟩

theorem SameCore_trans {a b c : Composer F} (h1 : SameCore a b) (h2 : SameCore b c) :
    SameCore a c := by
  obtain ⟨x1, x2, x3, x4, x5, x6, x7, x8, x9, x10, x11, x12, x13⟩ := h1
  obtain ⟨y1, y2, y3, y4, y5, y6, y7, y8, y9, y10, y11, y12, y13⟩ := h2
  exact ⟨x1.trans y1, x2.trans y2, x3.trans y3, x4.trans y4, x5.trans y5,
    x6.trans y6, x7.trans y7, x8.trans y8, x9.trans y9, x10.trans y10,
    x11.trans y11, x12.trans y12, x13.trans y13⟩

theorem add_input_core (c : Composer F) (v : F) : SameCore (add_input c v).1 c :=
  SameCore_refl c

theorem add_wire_core (c : Composer F) (i v : Nat) : SameCore (add_wire c i v) c := by
  unfold add_wire perm_add
  split <;> exact SameCore_refl c

theorem foldl_add_wire_core :
    ∀ (l : List Nat) (c : Composer F),
      SameCore (l.foldl (fun acc i => add_wire acc i acc.zero_var) c) c := by
  intro l
  induction l with
  | nil => intro c; exact SameCore_refl c
  | cons i l ih =>
    intro c
    rw [List.foldl_cons]
    exact SameCore_trans (ih _) (add_wire_core _ _ _)

theorem rangePad_core (c : Composer F) (pad : Nat) : SameCore (rangePad c pad) c :=
  foldl_add_wire_core _ c

/-- Stepping the accumulator loop when both bit accesses are in
range. -/
theorem rangeQuadLoop_cons_ok (bits : List Bool) (nq i : Nat) (is : List Nat)
    (c : Composer F) (acc : F) (accs : List Nat) (q_0 q_1 : Bool)
    (h0 : bits[(nq - i) * 2]? = some q_0)
    (h1 : bits[(nq - i) * 2 + 1]? = some q_1) :
    rangeQuadLoop bits nq (i :: is) (c, acc, accs)
      = rangeQuadLoop bits nq is
          (add_wire
              (add_input c (4 * acc + ((if q_0 then 1 else 0)
                + 2 * (if q_1 then 1 else 0)))).1 i
              (add_input c (4 * acc + ((if q_0 then 1 else 0)
                + 2 * (if q_1 then 1 else 0)))).2,
            4 * acc + ((if q_0 then 1 else 0) + 2 * (if q_1 then 1 else 0)),
            accs ++ [(add_input c (4 * acc + ((if q_0 then 1 else 0)
                + 2 * (if q_1 then 1 else 0)))).2]) := by
  conv_lhs => simp only [rangeQuadLoop]
  rw [h0, h1]

/-- The accumulator loop panics (returns `none`) when the head
position's bit access is out of range. -/
theorem rangeQuadLoop_cons_fail (bits : List Bool) (nq i : Nat) (is : List Nat)
    (c : Composer F) (acc : F) (accs : List Nat)
    (h : bits.length ≤ (nq - i) * 2 + 1) :
    rangeQuadLoop bits nq (i :: is) (c, acc, accs) = none := by
  have h1 : bits[(nq - i) * 2 + 1]? = none := List.getElem?_eq_none h
  unfold rangeQuadLoop
  cases h0 : bits[(nq - i) * 2]? with
  | none => rfl
  | some q_0 => rw [h1]

/-- Sequencing the accumulator loop over an appended index list. -/
theorem rangeQuadLoop_append (bits : List Bool) (nq : Nat) :
    ∀ (is1 is2 : List Nat) (st : Composer F × F × List Nat),
      rangeQuadLoop bits nq (is1 ++ is2) st
        = match rangeQuadLoop bits nq is1 st with
          | none => none
          | some st2 => rangeQuadLoop bits nq is2 st2 := by
  intro is1
  induction is1 with
  | nil => intro is2 st; rfl
  | cons i is1 ih =>
    intro is2 st
    obtain ⟨c, acc, accs⟩ := st
    rw [List.cons_append]
    by_cases hin : (nq - i) * 2 + 1 < bits.length
    · obtain ⟨q_0, h0⟩ : ∃ b, bits[(nq - i) * 2]? = some b :=
        ⟨_, List.getElem?_eq_getElem (by omega)⟩
      obtain ⟨q_1, h1⟩ : ∃ b, bits[(nq - i) * 2 + 1]? = some b :=
        ⟨_, List.getElem?_eq_getElem hin⟩
      rw [rangeQuadLoop_cons_ok bits nq i (is1 ++ is2) c acc accs q_0 q_1 h0 h1,
        rangeQuadLoop_cons_ok bits nq i is1 c acc accs q_0 q_1 h0 h1]
      exact ih is2 _
    · rw [rangeQuadLoop_cons_fail bits nq i (is1 ++ is2) c acc accs (by omega),
        rangeQuadLoop_cons_fail bits nq i is1 c acc accs (by omega)]

/-- The accumulator loop over `range' s m` succeeds when every bit
access is in range, produces `m` new accumulators, and leaves the gate
count, zero variable and selectors unchanged. -/
theorem rangeQuadLoop_spec (bits : List Bool) (nq : Nat) :
    ∀ (m s : Nat) (c : Composer F) (acc : F) (accs : List Nat),
      (∀ k, k < m → (nq - (s + k)) * 2 + 1 < bits.length) →
      ∃ out : Composer F × F × List Nat,
        rangeQuadLoop bits nq (List.range' s m) (c, acc, accs) = some out
          ∧ out.2.2.length = accs.length + m
          ∧ SameCore out.1 c := by
  intro m
  induction m with
  | zero =>
    intro s c acc accs _
    exact ⟨(c, acc, accs), rfl, by simp, SameCore_refl c⟩
  | succ m ih =>
    intro s c acc accs hacc
    rw [List.range'_succ]
    have hlt : (nq - s) * 2 + 1 < bits.length := by
      have := hacc 0 (by omega)
      simpa using this
    obtain ⟨q_0, h0⟩ : ∃ b, bits[(nq - s) * 2]? = some b :=
      ⟨_, List.getElem?_eq_getElem (by omega)⟩
    obtain ⟨q_1, h1⟩ : ∃ b, bits[(nq - s) * 2 + 1]? = some b :=
      ⟨_, List.getElem?_eq_getElem hlt⟩
    rw [rangeQuadLoop_cons_ok bits nq s (List.range' (s + 1) m) c acc accs q_0 q_1 h0 h1]
    obtain ⟨out, hout, hlen, hcore⟩ :=
      ih (s + 1)
        (add_wire (add_input c (4 * acc + ((if q_0 then 1 else 0)
            + 2 * (if q_1 then 1 else 0)))).1 s
          (add_input c (4 * acc + ((if q_0 then 1 else 0)
            + 2 * (if q_1 then 1 else 0)))).2)
        (4 * acc + ((if q_0 then 1 else 0) + 2 * (if q_1 then 1 else 0)))
        (accs ++ [(add_input c (4 * acc + ((if q_0 then 1 else 0)
            + 2 * (if q_1 then 1 else 0)))).2])
        (fun k hk => by
          have := hacc (k + 1) (by omega)
          omega)
    refine ⟨out, hout, ?_, ?_⟩
    · rw [hlen]
      simp only [List.length_append, List.length_cons, List.length_nil]
      omega
    · exact SameCore_trans hcore
        (SameCore_trans (add_wire_core _ _ _) (add_input_core _ _))

/-- An `add_wire` at a position divisible by four pushes onto the
fourth wire. -/
theorem add_wire_mod0_w4 (c : Composer F) (i v : Nat) (h : i % 4 = 0) :
    (add_wire c i v).w_4 = c.w_4 ++ [v] := by
  unfold add_wire perm_add
  rw [h]

theorem setLast_concat {α : Type} (l : List α) (x y : α) :
    setLast (l ++ [x]) y = l ++ [y] := by
  unfold setLast
  induction l with
  | nil => rfl
  | cons a l ih =>
    simp only [List.cons_append, List.length_cons, List.length_append,
      List.length_nil] at ih ⊢
    rw [show l.length + 1 + 1 - 1 = (l.length + 1 - 1) + 1 from by omega,
      List.set_cons_succ]
    rw [show l.length + 1 - 1 = l.length + 0 + 1 - 1 from by omega] at ih
    rw [ih]

theorem setLast_append_replicate (l : List F) (u : Nat) (h : 1 ≤ u) :
    setLast (l ++ List.replicate u 1) 0
      = l ++ (List.replicate (u - 1) 1 ++ [0]) := by
  obtain ⟨v, rfl⟩ : ∃ v, u = v + 1 := ⟨u - 1, by omega⟩
  rw [List.replicate_succ' v (1 : F), ← List.append_assoc, setLast_concat,
    List.append_assoc]
  simp

theorem rangeNumGates_eq (num_bits : Nat) :
    rangeNumGates num_bits = (num_bits + 7) / 8 := by
  unfold rangeNumGates
  split <;> omega

/-- The index arithmetic of the range gadget for even `num_bits ≥ 2`:
the loop runs `num_bits / 2` times, its first bit index is
`num_bits - 2`, and its last position is `num_quads`. -/
theorem range_arith (num_bits : Nat) (heven : num_bits % 2 = 0)
    (h2 : 2 ≤ num_bits) :
    rangeNumQuads num_bits + 1 - rangePadCount num_bits = num_bits / 2
      ∧ (rangeNumQuads num_bits - rangePadCount num_bits) * 2 + 1 = num_bits - 1
      ∧ rangePadCount num_bits + (num_bits / 2 - 1) = rangeNumQuads num_bits
      ∧ rangeNumQuads num_bits % 4 = 0
      ∧ 1 ≤ num_bits / 2 := by
  unfold rangePadCount rangeNumQuads
  rw [rangeNumGates_eq]
  refine ⟨by omega, by omega, by omega, by omega, by omega⟩

/-- The shared specification of the range-gate block for even
`num_bits` with `2 ≤ num_bits ≤ bits.length`: it succeeds, produces
`num_bits / 2` accumulators, appends `⌈num_bits / 8⌉ + 1` rows whose
`q_range` entries are ones followed by a final zero, and the last row
carries the last accumulator on the fourth wire and the zero variable
on the other three. -/
theorem range_gate_block_spec (c : Composer F) (witness num_bits : Nat)
    (reprBits : F → List Bool)
    (heven : num_bits % 2 = 0) (h2 : 2 ≤ num_bits)
    (hbits : num_bits ≤ (reprBits (c.vars.getD witness 0)).length) :
    ∃ c3 accs,
      range_gate_block c witness num_bits reprBits = some (c3, accs)
        ∧ accs ≠ []
        ∧ accs.length = num_bits / 2
        ∧ c3.n = c.n + ((num_bits + 7) / 8 + 1)
        ∧ c3.zero_var = c.zero_var
        ∧ c3.q_range = c.q_range ++ (List.replicate ((num_bits + 7) / 8) 1 ++ [0])
        ∧ c3.w_4.getLast? = accs.getLast?
        ∧ c3.w_l.getLast? = some c.zero_var
        ∧ c3.w_r.getLast? = some c.zero_var
        ∧ c3.w_o.getLast? = some c.zero_var := by
  obtain ⟨hcnt, hfirst, hlast, hmod4, hhalf⟩ := range_arith num_bits heven h2
  -- run the loop on all positions but the last
  obtain ⟨out, hout, hlen, hcore⟩ :=
    rangeQuadLoop_spec (reprBits (c.vars.getD witness 0)) (rangeNumQuads num_bits)
      (num_bits / 2 - 1) (rangePadCount num_bits)
      (rangePad c (rangePadCount num_bits)) 0 []
      (fun k hk => by omega)
  obtain ⟨cA, accA, accsA⟩ := out
  -- the last position is `num_quads` itself and pushes onto `w_4`
  have hsplit : List.range' (rangePadCount num_bits)
      (rangeNumQuads num_bits + 1 - rangePadCount num_bits)
      = List.range' (rangePadCount num_bits) (num_bits / 2 - 1)
          ++ [rangeNumQuads num_bits] := by
    have e1 : rangeNumQuads num_bits + 1 - rangePadCount num_bits
        = (num_bits / 2 - 1) + 1 := by omega
    rw [e1, List.range'_1_concat, hlast]
  have hstep : (rangeNumQuads num_bits - rangeNumQuads num_bits) * 2 + 1
      < (reprBits (c.vars.getD witness 0)).length := by omega
  obtain ⟨q_0, h0⟩ : ∃ b,
      (reprBits (c.vars.getD witness 0))[(rangeNumQuads num_bits
        - rangeNumQuads num_bits) * 2]? = some b :=
    ⟨_, List.getElem?_eq_getElem (by omega)⟩
  obtain ⟨q_1, h1⟩ : ∃ b,
      (reprBits (c.vars.getD witness 0))[(rangeNumQuads num_bits
        - rangeNumQuads num_bits) * 2 + 1]? = some b :=
    ⟨_, List.getElem?_eq_getElem hstep⟩
  have hloop : rangeQuadLoop (reprBits (c.vars.getD witness 0))
      (rangeNumQuads num_bits)
      (List.range' (rangePadCount num_bits)
        (rangeNumQuads num_bits + 1 - rangePadCount num_bits))
      (rangePad c (rangePadCount num_bits), 0, [])
      = some
          (add_wire
              (add_input cA (4 * accA + ((if q_0 then 1 else 0)
                + 2 * (if q_1 then 1 else 0)))).1 (rangeNumQuads num_bits)
              (add_input cA (4 * accA + ((if q_0 then 1 else 0)
                + 2 * (if q_1 then 1 else 0)))).2,
            4 * accA + ((if q_0 then 1 else 0) + 2 * (if q_1 then 1 else 0)),
            accsA ++ [(add_input cA (4 * accA + ((if q_0 then 1 else 0)
                + 2 * (if q_1 then 1 else 0)))).2]) := by
    rw [hsplit, rangeQuadLoop_append, hout]
    show rangeQuadLoop (reprBits (c.vars.getD witness 0)) (rangeNumQuads num_bits)
        [rangeNumQuads num_bits] (cA, accA, accsA) = _
    rw [rangeQuadLoop_cons_ok _ _ _ [] cA accA accsA q_0 q_1 h0 h1]
    rfl
  -- assemble the block
  have h974 : (add_wire
      (add_input cA (4 * accA + ((if q_0 then 1 else 0)
        + 2 * (if q_1 then 1 else 0)))).1 (rangeNumQuads num_bits)
      (add_input cA (4 * accA + ((if q_0 then 1 else 0)
        + 2 * (if q_1 then 1 else 0)))).2).w_4
      = cA.w_4 ++ [(add_input cA (4 * accA + ((if q_0 then 1 else 0)
        + 2 * (if q_1 then 1 else 0)))).2] :=
    add_wire_mod0_w4 _ _ _ hmod4
  have hcoreA : SameCore cA c :=
    SameCore_trans hcore (rangePad_core c (rangePadCount num_bits))
  have hcoreFinal : SameCore (add_wire
      (add_input cA (4 * accA + ((if q_0 then 1 else 0)
        + 2 * (if q_1 then 1 else 0)))).1 (rangeNumQuads num_bits)
      (add_input cA (4 * accA + ((if q_0 then 1 else 0)
        + 2 * (if q_1 then 1 else 0)))).2) c :=
    SameCore_trans (SameCore_trans (add_wire_core _ _ _) (add_input_core _ _)) hcoreA
  obtain ⟨he1, he2, he3, he4, he5, he6, he7, he8, he9, he10, he11, he12, he13⟩ :=
    hcoreFinal
  unfold range_gate_block
  rw [if_pos heven, hloop]
  refine ⟨_, _, rfl, ?_, ?_, ?_, ?_, ?_, ?_, ?_, ?_, ?_⟩
  · simp
  · simp only [List.length_append, List.length_cons, List.length_nil]
    simp only [List.length_nil] at hlen
    omega
  · show _ + (rangeNumGates num_bits + 1) = _
    rw [he1, rangeNumGates_eq]
  · exact he2
  · show setLast (_ ++ List.replicate (rangeNumGates num_bits + 1) 1) 0 = _
    have hq : setLast (c.q_range ++ List.replicate (rangeNumGates num_bits + 1) (1 : F)) 0
        = c.q_range
            ++ (List.replicate (rangeNumGates num_bits + 1 - 1) (1 : F) ++ [0]) :=
      setLast_append_replicate _ _ (by omega)
    rw [he10, hq, rangeNumGates_eq]
    simp
  · show (add_wire _ _ _).w_4.getLast? = _
    rw [h974, List.getLast?_concat, List.getLast?_concat]
  · show (_ ++ [_]).getLast? = _
    rw [List.getLast?_concat, he2]
  · show (_ ++ [_]).getLast? = _
    rw [List.getLast?_concat, he2]
  · show (_ ++ [_]).getLast? = _
    rw [List.getLast?_concat, he2]

/-- C5 (counterexample to the claim as stated): `num_bits = 0` is even,
yet `range_gate` panics (the accumulator vector stays empty, so
`accumulators.len() - 1` underflows and the indexing fails), producing
no row layout at all. -/
theorem range_gate_zero_bits_panics :
    range_gate composerExample 0 0 (fun _ => List.replicate 4 false) = none
      ∧ (0 : Nat) % 2 = 0 := by
  exact ⟨by decide, rfl⟩

/-- C5 (amended: for even `num_bits` with
`2 ≤ num_bits ≤ bits.length`): before the final equality gate,
`range_gate` appends exactly one more row than the naive count
`⌈num_bits / 8⌉`; the appended rows carry `q_range = 1` except the
final one with `q_range = 0`; the final row carries the last
accumulator on the fourth wire and the zero variable on the left,
right and output wires; and the last accumulator is linked to the
input witness by `assert_equal`, that is through the permutation and
not through selectors. -/
theorem range_gate_topology (c : Composer F) (witness num_bits : Nat)
    (reprBits : F → List Bool)
    (heven : num_bits % 2 = 0) (h2 : 2 ≤ num_bits)
    (hbits : num_bits ≤ (reprBits (c.vars.getD witness 0)).length) :
    ∃ c3 accs,
      range_gate_block c witness num_bits reprBits = some (c3, accs)
        ∧ c3.n = c.n + ((num_bits + 7) / 8 + 1)
        ∧ c3.q_range = c.q_range ++ (List.replicate ((num_bits + 7) / 8) 1 ++ [0])
        ∧ accs.length = num_bits / 2
        ∧ c3.w_4.getLast? = accs.getLast?
        ∧ c3.w_l.getLast? = some c.zero_var
        ∧ c3.w_r.getLast? = some c.zero_var
        ∧ c3.w_o.getLast? = some c.zero_var
        ∧ range_gate c witness num_bits reprBits
            = some (assert_equal c3 (accs.getLastD 0) witness) := by
  obtain ⟨c3, accs, h1, hne, hlen, hn, hz, hqr, h4, hl, hr, ho⟩ :=
    range_gate_block_spec c witness num_bits reprBits heven h2 hbits
  refine ⟨c3, accs, h1, hn, hqr, hlen, h4, hl, hr, ho, ?_⟩
  obtain ⟨x, hx⟩ : ∃ x, accs.getLast? = some x := by
    cases h : accs.getLast? with
    | none => exact absurd (List.getLast?_eq_none_iff.mp h) hne
    | some x => exact ⟨x, rfl⟩
  unfold range_gate
  rw [h1]
  show (match accs.getLast? with
    | none => none
    | some last_accumulator => some (assert_equal c3 last_accumulator witness)) = _
  rw [hx, List.getLastD_eq_getLast?, hx]
  rfl

/-- Witness for C5 at two bits over `Fin 5`: the hypotheses hold by
computation and the block yields one accumulator together with the
`q_range` tail `[1, 0]`. -/
theorem range_gate_topology_witness :
    (2 : Nat) % 2 = 0 ∧ (2 : Nat) ≤ 2
      ∧ (2 : Nat) ≤ ((fun _ : Fin 5 => [true, true, false, false])
          (composerExample.vars.getD 0 0)).length
      ∧ ∃ c3 accs,
          range_gate_block composerExample 0 2
              (fun _ : Fin 5 => [true, true, false, false]) = some (c3, accs)
            ∧ accs.length = 1
            ∧ c3.q_range = composerExample.q_range
                ++ (List.replicate 1 1 ++ [0]) := by
  refine ⟨rfl, by decide, by decide, ?_⟩
  obtain ⟨c3, accs, h1, hn, hqr, hlen, h4, hl, hr, ho, hg⟩ :=
    range_gate_topology composerExample 0 2
      (fun _ : Fin 5 => [true, true, false, false]) rfl (by decide) (by decide)
  exact ⟨c3, accs, h1, hlen, hqr⟩

/-- C6 (counterexample to the claim as stated): `num_bits = 6` is even
and nonzero, yet `range_gate` panics when the witness value's bit
vector has only four bits, because the loop indexes `bits[5]`. -/
theorem range_gate_bits_too_short_panics :
    range_gate composerExample 0 6 (fun _ => List.replicate 4 false) = none
      ∧ (6 : Nat) % 2 = 0 ∧ (6 : Nat) ≠ 0 := by
  exact ⟨by decide, rfl, by decide⟩

/-- C6 (amended): `range_gate` panics exactly when `num_bits` is odd
(the evenness assertion), or `num_bits = 0` (the accumulator vector is
empty and `accumulators.len() - 1` underflows), or `num_bits` exceeds
the length of the witness value's bit vector (out-of-range bit
access). -/
theorem range_gate_panics_iff (c : Composer F) (witness num_bits : Nat)
    (reprBits : F → List Bool) :
    range_gate c witness num_bits reprBits = none
      ↔ (num_bits % 2 = 1 ∨ num_bits = 0
          ∨ (reprBits (c.vars.getD witness 0)).length < num_bits) := by
  constructor
  · intro h
    by_contra hno
    push_neg at hno
    obtain ⟨hodd, hzero, hlenge⟩ := hno
    have heven : num_bits % 2 = 0 := by omega
    have h2 : 2 ≤ num_bits := by omega
    obtain ⟨c3, accs, h1, hne, _, _, _, _, _, _, _, _⟩ :=
      range_gate_block_spec c witness num_bits reprBits heven h2 (by omega)
    obtain ⟨x, hx⟩ : ∃ x, accs.getLast? = some x := by
      cases hg : accs.getLast? with
      | none => exact absurd (List.getLast?_eq_none_iff.mp hg) hne
      | some x => exact ⟨x, rfl⟩
    unfold range_gate at h
    rw [h1] at h
    have h' : (match accs.getLast? with
        | none => none
        | some last_accumulator =>
          some (assert_equal c3 last_accumulator witness)) = none := h
    rw [hx] at h'
    exact Option.noConfusion h'
  · intro h
    by_cases hodd : num_bits % 2 = 1
    · unfold range_gate range_gate_block
      rw [if_neg (by omega)]
    · have heven : num_bits % 2 = 0 := by omega
      by_cases hzero : num_bits = 0
      · subst hzero
        rfl
      · have hlen : (reprBits (c.vars.getD witness 0)).length < num_bits := by
          rcases h with h1 | h1 | h1
          · omega
          · exact absurd h1 hzero
          · exact h1
        obtain ⟨hcnt, hfirst, hlast, hmod4, hhalf⟩ :=
          range_arith num_bits heven (by omega)
        unfold range_gate range_gate_block
        rw [if_pos heven]
        have hsplit2 : List.range' (rangePadCount num_bits)
            (rangeNumQuads num_bits + 1 - rangePadCount num_bits)
            = rangePadCount num_bits
                :: List.range' (rangePadCount num_bits + 1) (num_bits / 2 - 1) := by
          have e1 : rangeNumQuads num_bits + 1 - rangePadCount num_bits
              = (num_bits / 2 - 1) + 1 := by omega
          rw [e1, List.range'_succ]
        rw [hsplit2, rangeQuadLoop_cons_fail (reprBits (c.vars.getD witness 0))
          (rangeNumQuads num_bits) (rangePadCount num_bits)
          (List.range' (rangePadCount num_bits + 1) (num_bits / 2 - 1))
          (rangePad c (rangePadCount num_bits)) 0 [] (by omega)]

end ArkPlonk
